import Mathlib

/-!
# tykey: the typing-test engine of `internal/ui/test.go`

A shallow embedding of `TestModel` (the per-keystroke state machine), of its
`Update` method, of `Stats` and of the renderer `View` with `visualLen`,
followed by the properties proved about them.

Modelling conventions.

* A rune is a `Char`; `[]rune` is `List Char`; `len` is `List.length`.
* Go's `int` counters (`cursor`, `correct`, `incorrect`, `width`, `height`) are
  `Int`.  In an execution they are bounded by the length of a slice, so the
  64-bit range is never left and no wrap-around is modelled.
* A `time.Time` is an `Int`: nanoseconds counted from the zero `Time`, so that
  `IsZero t` is `t = 0`.  A `time.Duration` is an `Int` number of nanoseconds.
* The clock is an explicit argument `now` of `Update`: one call of `Update` is
  one instant, every read of the clock inside the call (`time.Now()`,
  `time.Since`) sees `now`.
* An index expression that Go would abort on (index out of range) makes the
  embedded function return `none`.
* `float64` arithmetic of `Stats` is carried out exactly, in `ℚ`.
* A Go `string` is the list of its bytes; `string(ch)` of a rune is its UTF-8
  encoding.  `fmt.Sprintf` of the statistics line is an argument of `View`.
-/

namespace Tykey

/-! ## Messages of the event loop (bubbletea) -/

/-- Kinds of key of the terminal library.  Only the kinds that `Update` tells
apart have a constructor of their own; every other kind is `KeyNamed` and is
carried with the name the library prints for it ("tab", "esc", "up", ...). -/
inductive KeyType where
  | KeyRunes
  | KeyCtrlC
  | KeyCtrlH
  | KeyBackspace
  | KeyEnter
  | KeyNamed (name : String)
  deriving DecidableEq, Repr

/-- The library's table of key names, for the kinds that are not `KeyRunes`. -/
def KeyType.keyName : KeyType → String
  | .KeyRunes => ""
  | .KeyCtrlC => "ctrl+c"
  | .KeyCtrlH => "ctrl+h"
  | .KeyBackspace => "backspace"
  | .KeyEnter => "enter"
  | .KeyNamed name => name

/-- A key press: `tea.KeyMsg`.  The field `Typ` is the library field `Type`. -/
structure KeyMsg where
  Typ : KeyType
  Runes : List Char
  Alt : Bool
  Paste : Bool
  deriving DecidableEq, Repr

/-- The library's `KeyMsg.String()`: the runes of a `KeyRunes` key (bracketed
when pasted), the name of any other key, with "alt+" in front when Alt is
held. -/
def KeyMsg.String (k : KeyMsg) : String :=
  let buf := if k.Alt then "alt+" else ""
  if k.Typ = KeyType.KeyRunes then
    if k.Paste then buf ++ "[" ++ String.mk k.Runes ++ "]"
    else buf ++ String.mk k.Runes
  else buf ++ k.Typ.keyName

/-- The messages `Update` receives: `tea.Msg`, by dynamic type. -/
inductive Msg where
  | WindowSizeMsg (Width Height : Int)
  | tickMsg (t : Int)
  | KeyMsg (key : KeyMsg)
  | other
  deriving DecidableEq, Repr

/-- The command `Update` returns: `nil`, `tick()` (one tick after 100ms) or
`tea.Quit`. -/
inductive Cmd where
  | nil
  | tick
  | Quit
  deriving DecidableEq, Repr

/-- A key press carrying the single rune `c`. -/
def charKey (c : Char) : Msg :=
  Msg.KeyMsg { Typ := KeyType.KeyRunes, Runes := [c], Alt := false, Paste := false }

/-- The backspace key. -/
def backspaceKey : Msg :=
  Msg.KeyMsg { Typ := KeyType.KeyBackspace, Runes := [], Alt := false, Paste := false }

/-- The enter key. -/
def enterKey : Msg :=
  Msg.KeyMsg { Typ := KeyType.KeyEnter, Runes := [], Alt := false, Paste := false }

/-! ## The engine state -/

/-- The state of one typing test: `type TestModel struct`. -/
structure TestModel where
  target : List Char
  typed : List Char
  cursor : Int
  started : Bool
  startTime : Int
  endTime : Int
  duration : Int
  remaining : Int
  done : Bool
  correct : Int
  incorrect : Int
  width : Int
  height : Int
  deriving DecidableEq, Repr

/-- `NewTestModelWith(target, d)`: a negative duration is clamped to zero, every
other field has its zero value. -/
def NewTestModelWith (target : String) (d : Int) : TestModel :=
  let d := if d < 0 then 0 else d
  { target := target.data
    typed := []
    cursor := 0
    started := false
    startTime := 0
    endTime := 0
    duration := d
    remaining := d
    done := false
    correct := 0
    incorrect := 0
    width := 0
    height := 0 }

/-- One second, in nanoseconds: `time.Second`. -/
def Second : Int := 1000000000

/-- `NewTestModel()`: the default test. -/
def NewTestModel : TestModel :=
  NewTestModelWith "the quick brown fox jumps over the lazy dog" (15 * Second)

/-- `xs[i]` for a Go `int` index: `none` when the index is out of range. -/
def index (xs : List Char) (i : Int) : Option Char :=
  if i < 0 then none else xs[i.toNat]?

/-- `time.Since(t)` read at the instant `now`. -/
def Since (t now : Int) : Int := now - t

/-- The backspace branch of `Update` (test.go, lines 104-121). -/
def backspaceStep (m : TestModel) : Option TestModel :=
  if m.typed.length > 0 then do
    let idx := m.typed.length - 1
    let m1 ←
      if idx < m.target.length then do
        let a ← m.typed[idx]?
        let b ← m.target[idx]?
        if a = b then pure { m with correct := m.correct - 1 }
        else pure { m with incorrect := m.incorrect - 1 }
      else pure { m with incorrect := m.incorrect - 1 }
    let m2 := { m1 with typed := m1.typed.take idx }
    if m2.cursor > 0 then pure { m2 with cursor := m2.cursor - 1 } else pure m2
  else pure m

/-- The insert branch of `Update` (test.go, lines 131-145): only the first rune
of the key is used. -/
def insertStep (m : TestModel) (r : List Char) : Option TestModel :=
  match r with
  | [] => pure m
  | ch :: _ => do
    let m1 := { m with typed := m.typed ++ [ch] }
    let m2 ←
      if m1.cursor < m1.target.length then do
        let t ← index m1.target m1.cursor
        if ch = t then pure { m1 with correct := m1.correct + 1 }
        else pure { m1 with incorrect := m1.incorrect + 1 }
      else pure { m1 with incorrect := m1.incorrect + 1 }
    pure { m2 with cursor := m2.cursor + 1 }

/-- The untimed completion check of `Update` (test.go, lines 148-151). -/
def completeStep (m : TestModel) (now : Int) : TestModel :=
  if m.duration = 0 ∧ m.cursor ≥ m.target.length then
    { m with done := true, endTime := now }
  else m

/-- `TestModel.Update`, at the instant `now`.  The result is the next state and
the command handed back to the event loop; `none` is a run-time abort. -/
def TestModel.Update (m : TestModel) (msg : Msg) (now : Int) : Option (TestModel × Cmd) :=
  match msg with
  | Msg.WindowSizeMsg w h => pure ({ m with width := w, height := h }, Cmd.nil)
  | Msg.tickMsg _ =>
    if !m.started || m.done || m.duration == 0 then pure (m, Cmd.nil)
    else
      let elapsed := Since m.startTime now
      if elapsed ≥ m.duration then
        pure ({ m with remaining := 0, done := true, endTime := now }, Cmd.nil)
      else
        pure ({ m with remaining := m.duration - elapsed }, Cmd.tick)
  | Msg.KeyMsg key =>
    let k := key.String
    if k = "ctrl+c" then pure (m, Cmd.Quit)
    else if m.done then pure (m, Cmd.nil)
    else if !m.started then
      let m1 := { m with started := true, startTime := now, remaining := m.duration }
      if m.duration > 0 then pure (m1, Cmd.tick) else pure (m1, Cmd.nil)
    else if key.Typ = KeyType.KeyBackspace ∨ k = "backspace" ∨ k = "ctrl+h" then do
      let m1 ← backspaceStep m
      pure (m1, Cmd.nil)
    else if key.Typ = KeyType.KeyEnter then pure (m, Cmd.nil)
    else do
      let m1 ← insertStep m key.Runes
      pure (completeStep m1 now, Cmd.nil)
  | Msg.other => pure (m, Cmd.nil)

/-- The engine driven by a sequence of events, each with the clock value at
which it is delivered. -/
def run (m : TestModel) : List (Msg × Int) → Option TestModel
  | [] => some m
  | (msg, now) :: rest =>
    match m.Update msg now with
    | none => none
    | some (m1, _) => run m1 rest

/-! ## The recount of the typed buffer and the engine invariant -/

/-- Number of positions, below both lengths, at which the typed buffer and the
target hold the same rune. -/
def matchCount : List Char → List Char → Nat
  | a :: as, b :: bs => (if a = b then 1 else 0) + matchCount as bs
  | _, _ => 0

/-- What holds of every state the engine can be in: the cursor is the length of
the typed buffer, the counters agree with a recount of the buffer, and nothing
is typed before the test is started. -/
def Inv (m : TestModel) : Prop :=
  m.cursor = m.typed.length ∧
  m.correct = matchCount m.typed m.target ∧
  m.incorrect = (m.typed.length : Int) - matchCount m.typed m.target ∧
  (m.started = false → m.typed = [])

instance (m : TestModel) : Decidable (Inv m) := by
  unfold Inv; infer_instance

/-- The state after inserting `ch`, `hit` telling whether it matched. -/
def inserted (m : TestModel) (ch : Char) (hit : Bool) : TestModel :=
  { m with
    typed := m.typed ++ [ch]
    correct := if hit then m.correct + 1 else m.correct
    incorrect := if hit then m.incorrect else m.incorrect + 1
    cursor := m.cursor + 1 }

/-- The state after removing the last typed rune, `hit` telling whether it
matched. -/
def removed (m : TestModel) (rest : List Char) (hit : Bool) : TestModel :=
  { m with
    typed := rest
    correct := if hit then m.correct - 1 else m.correct
    incorrect := if hit then m.incorrect else m.incorrect - 1
    cursor := if m.cursor > 0 then m.cursor - 1 else m.cursor }

/-! ## Final statistics -/

/-- The final metrics of a run: `type Stats struct`. -/
structure Stats where
  DurationSec : ℚ
  GrossWPM : ℚ
  NetWPM : ℚ
  AccuracyPct : ℚ
  Correct : Int
  TotalTyped : Int
  deriving DecidableEq

/-- `time.Time.IsZero`. -/
def IsZero (t : Int) : Bool := t == 0

/-- `t.Sub(u)`: the duration from `u` to `t`. -/
def Sub (t u : Int) : Int := t - u

/-- `time.Duration.Seconds`: a duration in seconds, in exact arithmetic. -/
def Seconds (d : Int) : ℚ := (d : ℚ) / 1000000000

/-- `TestModel.Stats`, in exact arithmetic. -/
def TestModel.Stats (m : TestModel) : Stats :=
  let totalSec : ℚ :=
    if m.duration > 0 then Seconds m.duration
    else if !IsZero m.startTime && !IsZero m.endTime then Seconds (Sub m.endTime m.startTime)
    else 0
  let minutes : ℚ := if totalSec > 0 then totalSec / 60 else 0
  let gross : ℚ := if minutes > 0 then (m.typed.length : ℚ) / 5 / minutes else 0
  let acc : ℚ :=
    if m.typed.length > 0 then (m.correct : ℚ) / (m.typed.length : ℚ) * 100 else 0
  { DurationSec := totalSec
    GrossWPM := gross
    NetWPM := gross * (acc / 100)
    AccuracyPct := acc
    Correct := m.correct
    TotalTyped := m.typed.length }

/-! ## Further invariants of the engine -/

/-- The recount in the words of the specification: the number of positions
`i < min(len(typed), len(target))` with `typed[i] == target[i]`. -/
def recountSpec (typed target : List Char) : Nat :=
  (List.range (min typed.length target.length)).countP
    (fun i => decide (typed[i]? = target[i]?))

/-- What holds of every state of an untimed test with a non-empty target: the
buffer is never longer than the target, and the test is done exactly when the
buffer has the length of the target. -/
def UntimedInv (m : TestModel) : Prop :=
  m.typed.length ≤ m.target.length ∧ (m.done = true ↔ m.typed.length = m.target.length)

/-! ## The renderer: `TestModel.View`

A Go `string` (and the `[]byte` buffer `out`) is a list of bytes.  The index
expressions of `View` are all guarded by a bound check one line above them, so
the renderer is embedded as a total function.  The statistics line is
produced by `fmt.Sprintf` from `float64` values; the formatting function is
an argument `Sprintf` of the embedding, the values handed to it are computed
exactly. -/

/-- A Go `string` or `[]byte`. -/
abbrev Bytes := List Nat

/-- The conversion `string(ch)` of a rune: its UTF-8 encoding. -/
def utf8 (ch : Char) : Bytes :=
  let n := ch.toNat
  if n < 0x80 then [n]
  else if n < 0x800 then [0xC0 + n / 0x40, 0x80 + n % 0x40]
  else if n < 0x10000 then [0xE0 + n / 0x1000, 0x80 + n / 0x40 % 0x40, 0x80 + n % 0x40]
  else [0xF0 + n / 0x40000, 0x80 + n / 0x1000 % 0x40, 0x80 + n / 0x40 % 0x40, 0x80 + n % 0x40]

/-- A string literal of the source, as bytes. -/
def str (s : String) : Bytes := s.data.flatMap utf8

/-- The constant `reset`. -/
def reset : Bytes := str "\x1b[0m"

/-- The constant `dim`. -/
def dim : Bytes := str "\x1b[2m"

/-- The constant `bold`. -/
def bold : Bytes := str "\x1b[1m"

/-- The constant `green`. -/
def green : Bytes := str "\x1b[32m"

/-- The constant `red`. -/
def red : Bytes := str "\x1b[31m"

/-- The constant `ul`. -/
def ul : Bytes := str "\x1b[4m"

/-- The constant `white`. -/
def white : Bytes := str "\x1b[97m"

/-- The wrapping width `maxW` of `View` (test.go, lines 172-179). -/
def maxW (width : Int) : Int :=
  let w := if width ≤ 0 then 80 else width
  let w := w - 4
  if w < 20 then 20 else w

/-- The variables of the wrap scan. -/
structure WrapState where
  col : Int
  lastSpace : Int
  newlineAt : List Bool
  deriving DecidableEq, Repr

/-- One iteration of the wrap scan, at index `p.1` holding the rune `p.2`
(test.go, lines 184-192). -/
def wrapStep (maxW : Int) (s : WrapState) (p : Nat × Char) : WrapState :=
  let lastSpace := if p.2 = ' ' then (p.1 : Int) else s.lastSpace
  if s.col ≥ maxW ∧ lastSpace ≥ 0 then
    { col := (p.1 : Int) - lastSpace - 1 + 1
      lastSpace := -1
      newlineAt := s.newlineAt.set lastSpace.toNat true }
  else
    { col := s.col + 1
      lastSpace := lastSpace
      newlineAt := s.newlineAt }

/-- The variables of the wrap scan before its first iteration. -/
def wrapInit (target : List Char) : WrapState :=
  { col := 0, lastSpace := -1, newlineAt := List.replicate target.length false }

/-- The wrap scan after its first `i` iterations. -/
def wrapScan (maxW : Int) (target : List Char) (i : Nat) : WrapState :=
  (target.enum.take i).foldl (wrapStep maxW) (wrapInit target)

/-- The slice `newlineAt` after the wrap scan (test.go, lines 180-193). -/
def newlineAt (maxW : Int) (target : List Char) : List Bool :=
  (target.enum.foldl (wrapStep maxW) (wrapInit target)).newlineAt

/-- One iteration of the loop that writes the styled target into `out`, at
index `p.1` holding the rune `p.2` (test.go, lines 196-218). -/
def emitStep (m : TestModel) (nl : List Bool) (out : Bytes) (p : Nat × Char) : Bytes :=
  let out := if p.1 > 0 ∧ nl.getD (p.1 - 1) false = true then out ++ [10] else out
  if p.1 < m.typed.length then
    if m.typed[p.1]? = some p.2 then out ++ (bold ++ green) ++ utf8 p.2 ++ reset
    else out ++ (bold ++ red) ++ utf8 p.2 ++ reset
  else if p.1 = m.typed.length ∧ m.done = false then
    out ++ (bold ++ ul ++ white) ++ utf8 p.2 ++ reset
  else out ++ (bold ++ dim ++ white) ++ utf8 p.2 ++ reset

/-- The string `raw` of `View`: the styled target with its line breaks. -/
def TestModel.raw (m : TestModel) : Bytes :=
  m.target.enum.foldl (emitStep m (newlineAt (maxW m.width) m.target)) []

/-- The statistics line of `View` (test.go, lines 222-255), `Sprintf` standing
for `fmt.Sprintf` with the format of the source. -/
def TestModel.statLine (m : TestModel) (now : Int) (Sprintf : ℚ → ℚ → Int → ℚ → Bytes) :
    Bytes :=
  let elapsed : ℚ :=
    if m.started then
      if m.done then
        if m.duration > 0 then Seconds m.duration
        else if !IsZero m.startTime && !IsZero m.endTime then
          Seconds (Sub m.endTime m.startTime)
        else 0
      else Seconds (Since m.startTime now)
    else 0
  let minutes : ℚ := elapsed / 60
  let wpm : ℚ := if minutes > 0 then (m.typed.length : ℚ) / 5 / minutes else 0
  let acc : ℚ :=
    if m.typed.length > 0 then (m.correct : ℚ) / (m.typed.length : ℚ) * 100 else 0
  let timeSec : ℚ :=
    if m.duration > 0 then
      if m.started && !m.done then Seconds m.remaining
      else if !m.started then Seconds m.duration
      else 0
    else elapsed
  Sprintf wpm acc m.incorrect timeSec

/-- One step of `visualLen`: the count `n` and the flag `inEsc` after the byte
`c` (test.go, lines 290-304). -/
def visualStep (s : Nat × Bool) (c : Nat) : Nat × Bool :=
  if s.2 then
    if (97 ≤ c ∧ c ≤ 122) ∨ (65 ≤ c ∧ c ≤ 90) then (s.1, false) else (s.1, true)
  else if c = 0x1b then (s.1, true)
  else if c = 10 then (s.1, false)
  else (s.1 + 1, false)

/-- `visualLen`: the number of bytes outside escape sequences, newlines not
counted. -/
def visualLen (s : Bytes) : Nat := (s.foldl visualStep (0, false)).1

/-- `strings.Split(s, "\n")`. -/
def Split : Bytes → List Bytes
  | [] => [[]]
  | b :: rest =>
    if b = 10 then [] :: Split rest
    else
      match Split rest with
      | [] => [[b]]
      | l :: ls => (b :: l) :: ls

/-- `strings.Join(parts, "\n")`. -/
def Join : List Bytes → Bytes
  | [] => []
  | [a] => a
  | a :: b :: rest => a ++ [10] ++ Join (b :: rest)

/-- `strings.Repeat(" ", l)`. -/
def spaces (l : Int) : Bytes := List.replicate l.toNat 32

/-- One iteration of the centering loop of `View` (test.go, lines 264-271): the
line `ln` with its left padding.  The division is Go's, rounding to zero. -/
def padLine (width : Int) (ln : Bytes) : Bytes :=
  let l : Int :=
    if width > 0 then
      let l := Int.tdiv (width - visualLen ln) 2
      if l < 0 then 0 else l
    else 0
  spaces l ++ ln

/-- The lines of `View` before centering: the lines of `raw`, a blank line and
the statistics line (test.go, lines 258-262). -/
def TestModel.parts (m : TestModel) (now : Int) (Sprintf : ℚ → ℚ → Int → ℚ → Bytes) :
    List Bytes :=
  Split m.raw ++ [[]] ++ [m.statLine now Sprintf]

/-- `TestModel.View`, at the instant `now`. -/
def TestModel.View (m : TestModel) (now : Int) (Sprintf : ℚ → ℚ → Int → ℚ → Bytes) :
    Bytes :=
  let parts := (m.parts now Sprintf).map (padLine m.width)
  let body := Join parts
  let top : Int :=
    if m.height > 0 then
      let top := Int.tdiv (m.height - parts.length) 2
      if top < 0 then 0 else top
    else 0
  let padTop := List.replicate top.toNat 10
  padTop ++ body

/-- The style sequence of target position `i` in the words of the
specification: correct, incorrect, caret or pending. -/
def styleSpec (m : TestModel) (i : Nat) : Bytes :=
  if i < m.typed.length ∧ m.typed[i]? = m.target[i]? then bold ++ green
  else if i < m.typed.length ∧ m.typed[i]? ≠ m.target[i]? then bold ++ red
  else if i = m.typed.length ∧ m.done = false then bold ++ ul ++ white
  else bold ++ dim ++ white

/-- What holds of the wrap scan of `target` after `i` iterations: `newlineAt`
has the length of the target and marks only spaces, and `lastSpace` is -1 or
the index of a space already scanned. -/
def BreakInv (target : List Char) (i : Nat) (s : WrapState) : Prop :=
  s.newlineAt.length = target.length ∧
  (∀ j : Nat, s.newlineAt[j]? = some true → target[j]? = some ' ') ∧
  (s.lastSpace = -1 ∨
    (0 ≤ s.lastSpace ∧ s.lastSpace < i ∧ target[s.lastSpace.toNat]? = some ' '))

/-- What holds of the wrap scan after `i` iterations when no run of non-space
runes of the target is longer than `W`.  The current line starts at
`i - col`; it is at most `W` long, `lastSpace` is its last space if it has
one, no break is marked inside it, a break is marked just before it, and
every stretch without a break before it is at most `W + 1` long. -/
def WrapInv (W : Nat) (target : List Char) (i : Nat) (s : WrapState) : Prop :=
  (0 ≤ s.col ∧ s.col ≤ i ∧ s.col ≤ W) ∧
  (s.lastSpace = -1 ∨ ((i : Int) - s.col ≤ s.lastSpace ∧ s.lastSpace < i)) ∧
  (∀ j : Nat, (i : Int) - s.col ≤ j → j < i → s.lastSpace < j → target[j]? ≠ some ' ') ∧
  (∀ j : Nat, (i : Int) - s.col ≤ j → s.newlineAt[j]? ≠ some true) ∧
  ((i : Int) - s.col = 0 ∨
    ∃ k : Nat, (k : Int) + 1 = i - s.col ∧ s.newlineAt[k]? = some true) ∧
  (∀ a b : Nat, a ≤ b → (b : Int) < i - s.col →
    (∀ k : Nat, a ≤ k → k < b → s.newlineAt[k]? ≠ some true) → b - a ≤ W) ∧
  s.newlineAt.length = target.length

/-! ## Lemmas on keys -/

theorem charKey_String (c : Char) :
    KeyMsg.String { Typ := KeyType.KeyRunes, Runes := [c], Alt := false, Paste := false }
      = String.mk [c] := rfl

theorem single_ne_of_length (c : Char) (s : String) (h : s.length ≠ 1) : String.mk [c] ≠ s := by
  intro e
  apply h
  rw [← e]
  rfl

theorem matchCount_le (a t : List Char) : matchCount a t ≤ a.length := by
  induction a generalizing t with
  | nil => simp [matchCount]
  | cons x xs ih =>
    cases t with
    | nil => simp [matchCount]
    | cons y ys =>
      have := ih ys
      simp only [matchCount, List.length_cons]
      split <;> omega

theorem matchCount_snoc (a t : List Char) (c : Char) :
    matchCount (a ++ [c]) t
      = matchCount a t + (if t[a.length]? = some c then 1 else 0) := by
  induction a generalizing t with
  | nil =>
    cases t with
    | nil => simp [matchCount]
    | cons y ys =>
      by_cases h : c = y
      · simp [matchCount, h]
      · have h2 : ¬ y = c := fun e => h e.symm
        simp [matchCount, h, h2]
  | cons x xs ih =>
    cases t with
    | nil => simp [matchCount]
    | cons y ys =>
      rw [List.cons_append]
      simp only [matchCount, List.length_cons, List.getElem?_cons_succ]
      rw [ih ys]
      omega

theorem insertStep_eq (m : TestModel) (ch : Char) (r : List Char) (h0 : 0 ≤ m.cursor) :
    insertStep m (ch :: r)
      = some (inserted m ch (decide (m.target[m.cursor.toNat]? = some ch))) := by
  unfold insertStep inserted index
  by_cases hlt : m.cursor < m.target.length
  · have hn : m.cursor.toNat < m.target.length := by omega
    have hget : m.target[m.cursor.toNat]? = some (m.target[m.cursor.toNat]) :=
      List.getElem?_eq_getElem hn
    have hneg : ¬ m.cursor < 0 := by omega
    by_cases he : ch = m.target[m.cursor.toNat]
    · have he2 : m.target[m.cursor.toNat] = ch := he.symm
      simp [hlt, hneg, hget, he2]
    · have he2 : ¬ m.target[m.cursor.toNat] = ch := fun e => he e.symm
      simp [hlt, hneg, hget, he, he2]
  · have hnone : m.target[m.cursor.toNat]? = none := by
      apply List.getElem?_eq_none
      omega
    simp [hlt, hnone]

theorem backspaceStep_nil (m : TestModel) (h : m.typed = []) : backspaceStep m = some m := by
  unfold backspaceStep
  simp [h]

theorem backspaceStep_snoc (m : TestModel) (rest : List Char) (b : Char)
    (h : m.typed = rest ++ [b]) :
    backspaceStep m
      = some (removed m rest (decide (m.target[rest.length]? = some b))) := by
  unfold backspaceStep removed
  have hlen : m.typed.length = rest.length + 1 := by simp [h]
  have hpos : m.typed.length > 0 := by omega
  have hidx : m.typed.length - 1 = rest.length := by omega
  have hty : m.typed[rest.length]? = some b := by simp [h]
  have htake : List.take rest.length m.typed = rest := by simp [h]
  by_cases hlt : rest.length < m.target.length
  · have hget : m.target[rest.length]? = some (m.target[rest.length]) :=
      List.getElem?_eq_getElem hlt
    by_cases he : b = m.target[rest.length]
    · have he2 : m.target[rest.length] = b := he.symm
      by_cases hc : m.cursor > 0 <;> simp [hpos, hidx, hlt, hty, hget, he2, htake, hc]
    · have he2 : ¬ m.target[rest.length] = b := fun e => he e.symm
      by_cases hc : m.cursor > 0 <;> simp [hpos, hidx, hlt, hty, hget, he, he2, htake, hc]
  · have hnone : m.target[rest.length]? = none := by
      apply List.getElem?_eq_none
      omega
    by_cases hc : m.cursor > 0 <;> simp [hpos, hidx, hlt, hnone, htake, hc]

theorem Inv_inserted (m : TestModel) (ch : Char) (h : Inv m) (hs : m.started = true) :
    Inv (inserted m ch (decide (m.target[m.cursor.toNat]? = some ch))) := by
  obtain ⟨hc, hk, hi, _⟩ := h
  have hn : m.cursor.toNat = m.typed.length := by omega
  have hle := matchCount_le m.typed m.target
  unfold Inv inserted
  simp only [hn, matchCount_snoc, List.length_append, List.length_singleton]
  refine ⟨by push_cast; omega, ?_, ?_, ?_⟩
  · by_cases e : m.target[m.typed.length]? = some ch <;> simp [e] <;> omega
  · by_cases e : m.target[m.typed.length]? = some ch <;> simp [e] <;> omega
  · intro hf; simp [hs] at hf

theorem Inv_removed (m : TestModel) (rest : List Char) (b : Char) (h : Inv m)
    (ht : m.typed = rest ++ [b]) :
    Inv (removed m rest (decide (m.target[rest.length]? = some b))) := by
  obtain ⟨hc, hk, hi, hidle⟩ := h
  have hle := matchCount_le rest m.target
  have hst : m.started = true := by
    cases hb : m.started with
    | true => rfl
    | false => simp [hidle hb] at ht
  rw [ht, matchCount_snoc] at hk hi
  rw [ht] at hc
  simp only [List.length_append, List.length_singleton] at hc hi
  unfold Inv removed
  refine ⟨?_, ?_, ?_, ?_⟩
  · have : m.cursor > 0 := by omega
    simp [this]; omega
  · by_cases e : m.target[rest.length]? = some b <;> simp [e] at hk hi ⊢ <;> omega
  · by_cases e : m.target[rest.length]? = some b <;> simp [e] at hk hi ⊢ <;> omega
  · intro hf; simp [hst] at hf

theorem Inv_completeStep (m : TestModel) (now : Int) (h : Inv m) : Inv (completeStep m now) := by
  unfold completeStep
  split
  · exact h
  · exact h

theorem Inv_NewTestModelWith (target : String) (d : Int) : Inv (NewTestModelWith target d) := by
  unfold Inv NewTestModelWith
  simp [matchCount]

theorem completeStep_target (m : TestModel) (now : Int) :
    (completeStep m now).target = m.target ∧ (completeStep m now).duration = m.duration := by
  unfold completeStep
  split <;> simp

/-- One step from a state satisfying the invariant: `Update` returns, and the
next state satisfies the invariant, with the same target and duration. -/
theorem Update_Inv (m : TestModel) (msg : Msg) (now : Int) (h : Inv m) :
    ∃ m1 c, m.Update msg now = some (m1, c) ∧ Inv m1 ∧
      m1.target = m.target ∧ m1.duration = m.duration := by
  cases msg with
  | WindowSizeMsg w h1 => exact ⟨_, _, rfl, h, rfl, rfl⟩
  | tickMsg t =>
    unfold TestModel.Update
    simp only [pure]
    split
    · exact ⟨_, _, rfl, h, rfl, rfl⟩
    · split
      · exact ⟨_, _, rfl, h, rfl, rfl⟩
      · exact ⟨_, _, rfl, h, rfl, rfl⟩
  | other => exact ⟨_, _, rfl, h, rfl, rfl⟩
  | KeyMsg key =>
    unfold TestModel.Update
    simp only [pure]
    split
    · exact ⟨_, _, rfl, h, rfl, rfl⟩
    split
    · exact ⟨_, _, rfl, h, rfl, rfl⟩
    split
    · rename_i hns
      have hidle : m.typed = [] := h.2.2.2 (by simpa using hns)
      have hI : Inv { m with started := true, startTime := now, remaining := m.duration } := by
        obtain ⟨hc, hk, hi, _⟩ := h
        exact ⟨hc, hk, hi, fun _ => hidle⟩
      split
      · exact ⟨_, _, rfl, hI, rfl, rfl⟩
      · exact ⟨_, _, rfl, hI, rfl, rfl⟩
    rename_i hns
    have hst : m.started = true := by simpa using hns
    split
    · rcases List.eq_nil_or_concat m.typed with hnil | ⟨rest, b, hsn⟩
      · rw [backspaceStep_nil m hnil]
        exact ⟨_, _, rfl, h, rfl, rfl⟩
      · rw [List.concat_eq_append] at hsn
        rw [backspaceStep_snoc m rest b hsn]
        exact ⟨_, _, rfl, Inv_removed m rest b h hsn, rfl, rfl⟩
    split
    · exact ⟨_, _, rfl, h, rfl, rfl⟩
    · cases hr : key.Runes with
      | nil =>
        refine ⟨completeStep m now, Cmd.nil, rfl, Inv_completeStep m now h, ?_, ?_⟩
        · exact (completeStep_target m now).1
        · exact (completeStep_target m now).2
      | cons ch r =>
        have h0 : 0 ≤ m.cursor := by rw [h.1]; omega
        rw [insertStep_eq m ch r h0]
        refine ⟨_, Cmd.nil, rfl, Inv_completeStep _ now (Inv_inserted m ch h hst), ?_, ?_⟩
        · exact (completeStep_target _ now).1
        · exact (completeStep_target _ now).2

/-- From a state satisfying the invariant every sequence of events runs to a
state satisfying it. -/
theorem run_Inv (events : List (Msg × Int)) (m : TestModel) (h : Inv m) :
    ∃ s, run m events = some s ∧ Inv s ∧ s.target = m.target ∧ s.duration = m.duration := by
  induction events generalizing m with
  | nil => exact ⟨m, rfl, h, rfl, rfl⟩
  | cons e rest ih =>
    obtain ⟨msg, now⟩ := e
    obtain ⟨m1, c, hu, hI, ht, hd⟩ := Update_Inv m msg now h
    obtain ⟨s, hr, hIs, hts, hds⟩ := ih m1 hI
    refine ⟨s, ?_, hIs, hts.trans ht, hds.trans hd⟩
    simp only [run, hu]
    exact hr

/-- What `Update` does with a key carrying the single rune `c`. -/
theorem Update_charKey (m : TestModel) (c : Char) (now : Int) :
    m.Update (charKey c) now =
      if m.done then some (m, Cmd.nil)
      else if !m.started then
        some ({ m with started := true, startTime := now, remaining := m.duration },
          if m.duration > 0 then Cmd.tick else Cmd.nil)
      else (insertStep m [c]).bind fun m1 => some (completeStep m1 now, Cmd.nil) := by
  have h1 : String.mk [c] ≠ "ctrl+c" := single_ne_of_length c _ (by decide)
  have h2 : String.mk [c] ≠ "backspace" := single_ne_of_length c _ (by decide)
  have h3 : String.mk [c] ≠ "ctrl+h" := single_ne_of_length c _ (by decide)
  unfold TestModel.Update charKey
  simp only [charKey_String, h1, h2, h3, pure, bind]
  by_cases hd : m.done = true
  · simp [hd]
  · by_cases hs : m.started = true
    · simp [hd, hs]
    · by_cases hdur : m.duration > 0 <;> simp [hd, hs, hdur]

/-- A key that `Update` treats as backspace is not the quit key. -/
theorem backspace_not_quit (key : KeyMsg)
    (hb : key.Typ = KeyType.KeyBackspace ∨ key.String = "backspace" ∨ key.String = "ctrl+h") :
    key.String ≠ "ctrl+c" := by
  rcases hb with h | h | h
  · obtain ⟨ty, rs, alt, paste⟩ := key
    simp only at h
    subst h
    cases alt <;> simp [KeyMsg.String, KeyType.keyName]
  · rw [h]; decide
  · rw [h]; decide

/-- What `Update` does with a key of kind enter is decided before the insert
branch: such a key is neither quit nor backspace. -/
theorem enter_String (key : KeyMsg) (h : key.Typ = KeyType.KeyEnter) :
    key.String ≠ "ctrl+c" ∧ key.String ≠ "backspace" ∧ key.String ≠ "ctrl+h" ∧
      key.Typ ≠ KeyType.KeyBackspace := by
  obtain ⟨ty, rs, alt, paste⟩ := key
  simp only at h
  subst h
  cases alt <;> simp [KeyMsg.String, KeyType.keyName]

/-- What `Update` does with a key it treats as backspace. -/
theorem Update_backspace (m : TestModel) (key : KeyMsg) (now : Int)
    (hb : key.Typ = KeyType.KeyBackspace ∨ key.String = "backspace" ∨ key.String = "ctrl+h") :
    m.Update (Msg.KeyMsg key) now =
      if m.done then some (m, Cmd.nil)
      else if !m.started then
        some ({ m with started := true, startTime := now, remaining := m.duration },
          if m.duration > 0 then Cmd.tick else Cmd.nil)
      else (backspaceStep m).bind fun m1 => some (m1, Cmd.nil) := by
  have hq := backspace_not_quit key hb
  unfold TestModel.Update
  simp only [hq, hb, pure, bind]
  by_cases hd : m.done = true
  · simp [hd]
  · by_cases hs : m.started = true
    · simp [hd, hs]
    · by_cases hdur : m.duration > 0 <;> simp [hd, hs, hdur]

/-- Insert then backspace, from a state satisfying the invariant, when the
insert does not complete an untimed test. -/
theorem insert_backspace_Inv (s : TestModel) (c : Char) (t1 t2 : Int) (hI : Inv s)
    (hnc : ¬ (s.started = true ∧ s.done = false ∧ s.duration = 0 ∧
      (s.target.length : Int) ≤ s.cursor + 1)) :
    ∃ s1 c1 s2 c2, s.Update (charKey c) t1 = some (s1, c1) ∧
      s1.Update backspaceKey t2 = some (s2, c2) ∧
      s2.typed = s.typed ∧ s2.correct = s.correct ∧ s2.incorrect = s.incorrect ∧
      s2.cursor = s.cursor := by
  have hbk : ∀ m : TestModel, m.Update backspaceKey t2 =
      if m.done then some (m, Cmd.nil)
      else if !m.started then
        some ({ m with started := true, startTime := t2, remaining := m.duration },
          if m.duration > 0 then Cmd.tick else Cmd.nil)
      else (backspaceStep m).bind fun m1 => some (m1, Cmd.nil) :=
    fun m => Update_backspace m _ t2 (Or.inl rfl)
  by_cases hd : s.done = true
  · refine ⟨s, Cmd.nil, s, Cmd.nil, ?_, ?_, rfl, rfl, rfl, rfl⟩
    · rw [Update_charKey]; simp [hd]
    · rw [hbk]; simp [hd]
  have hd' : s.done = false := by simpa using hd
  by_cases hs : s.started = true
  · have h0 : 0 ≤ s.cursor := by rw [hI.1]; omega
    have hn : s.cursor.toNat = s.typed.length := by have := hI.1; omega
    have hcs : completeStep (inserted s c (decide (s.target[s.cursor.toNat]? = some c))) t1
        = inserted s c (decide (s.target[s.cursor.toNat]? = some c)) := by
      unfold completeStep
      rw [if_neg]
      intro hx
      apply hnc
      refine ⟨hs, hd', ?_, ?_⟩
      · simpa [inserted] using hx.1
      · simpa [inserted] using hx.2
    refine ⟨inserted s c (decide (s.target[s.cursor.toNat]? = some c)), Cmd.nil,
      removed (inserted s c (decide (s.target[s.cursor.toNat]? = some c))) s.typed
        (decide (s.target[s.typed.length]? = some c)), Cmd.nil, ?_, ?_, ?_, ?_, ?_, ?_⟩
    · rw [Update_charKey, insertStep_eq s c [] h0]
      simp [hd', hs, hcs]
    · rw [hbk, backspaceStep_snoc _ s.typed c (by simp [inserted])]
      simp [inserted, hd', hs]
    · simp [removed]
    · rw [hn]
      by_cases e : s.target[s.typed.length]? = some c <;> simp [removed, inserted, e]
    · rw [hn]
      by_cases e : s.target[s.typed.length]? = some c <;> simp [removed, inserted, e]
    · have : s.cursor + 1 > 0 := by omega
      simp [removed, inserted, this]
  · have hs' : s.started = false := by simpa using hs
    have hnil : s.typed = [] := hI.2.2.2 hs'
    refine ⟨{ s with started := true, startTime := t1, remaining := s.duration },
      (if s.duration > 0 then Cmd.tick else Cmd.nil),
      { s with started := true, startTime := t1, remaining := s.duration }, Cmd.nil,
      ?_, ?_, rfl, rfl, rfl, rfl⟩
    · rw [Update_charKey]; simp [hd', hs']
    · rw [hbk, backspaceStep_nil _ (by simpa using hnil)]
      simp [hd']

/-- Typing runes into a running untimed test that is not yet complete: the test
is done exactly when the buffer has reached the length of the target. -/
theorem run_typing (cs : List Char) (s : TestModel) (evs : List (Msg × Int))
    (hev : evs.map Prod.fst = cs.map charKey) (hI : Inv s)
    (hs : s.started = true) (hd : s.done = false) (hdur : s.duration = 0)
    (hlt : s.typed.length < s.target.length)
    (hlen : s.typed.length + cs.length ≤ s.target.length) :
    ∃ r, run s evs = some r ∧ r.typed.length = s.typed.length + cs.length ∧
      (r.done = true ↔ s.typed.length + cs.length = s.target.length) := by
  induction cs generalizing s evs with
  | nil =>
    have he : evs = [] := by simpa using hev
    subst he
    refine ⟨s, rfl, by simp, ?_⟩
    simp only [hd, List.length_nil, Nat.add_zero]
    constructor
    · intro h; cases h
    · intro h; omega
  | cons c cs ih =>
    cases evs with
    | nil => simp at hev
    | cons e evs =>
      obtain ⟨msg, now⟩ := e
      simp only [List.map_cons, List.cons.injEq] at hev
      obtain ⟨hmsg, hrest⟩ := hev
      subst hmsg
      have hc1 := hI.1
      have h0 : 0 ≤ s.cursor := by omega
      have hup : s.Update (charKey c) now
          = some (completeStep (inserted s c (decide (s.target[s.cursor.toNat]? = some c))) now,
              Cmd.nil) := by
        rw [Update_charKey, insertStep_eq s c [] h0]
        simp [hd, hs]
      have hIn := Inv_inserted s c hI hs
      have htl : (inserted s c (decide (s.target[s.cursor.toNat]? = some c))).typed.length
          = s.typed.length + 1 := by simp [inserted]
      have htg : (inserted s c (decide (s.target[s.cursor.toNat]? = some c))).target
          = s.target := rfl
      have hcu : (inserted s c (decide (s.target[s.cursor.toNat]? = some c))).cursor
          = s.cursor + 1 := rfl
      have hdu : (inserted s c (decide (s.target[s.cursor.toNat]? = some c))).duration
          = s.duration := rfl
      have hst : (inserted s c (decide (s.target[s.cursor.toNat]? = some c))).started
          = s.started := rfl
      have hdn : (inserted s c (decide (s.target[s.cursor.toNat]? = some c))).done
          = s.done := rfl
      generalize inserted s c (decide (s.target[s.cursor.toNat]? = some c)) = ins at *
      simp only [List.length_cons] at hlen
      by_cases hfin : s.typed.length + 1 = s.target.length
      · have hcs : cs = [] := by
          apply List.eq_nil_of_length_eq_zero
          omega
        subst hcs
        have he : evs = [] := by simpa using hrest
        subst he
        have hfire : completeStep ins now = { ins with done := true, endTime := now } := by
          unfold completeStep
          rw [if_pos]
          refine ⟨by rw [hdu, hdur], ?_⟩
          rw [hcu, htg]
          omega
        refine ⟨completeStep ins now, by simp only [run, hup], ?_, ?_⟩
        · rw [hfire]
          simpa using htl
        · rw [hfire]
          simpa using hfin
      · have hcomp : completeStep ins now = ins := by
          unfold completeStep
          rw [if_neg]
          intro hx
          have := hx.2
          rw [hcu, htg] at this
          omega
        rw [hcomp] at hup
        obtain ⟨r, hr, hrl, hrd⟩ := ih ins evs hrest hIn (by rw [hst, hs]) (by rw [hdn, hd])
          (by rw [hdu, hdur]) (by rw [htl, htg]; omega) (by rw [htl, htg]; omega)
        rw [htl] at hrl
        rw [htl, htg] at hrd
        refine ⟨r, by simp only [run, hup]; exact hr, ?_, ?_⟩
        · rw [hrl]
          simp only [List.length_cons]
          omega
        · rw [hrd]
          simp only [List.length_cons]
          constructor <;> intro h <;> omega

/-! ## The properties of the engine -/

/-- C1: in every state reached from `NewTestModelWith target d` by any sequence
of events (every such sequence runs to a state), `correct` and `incorrect` are
non-negative and `correct + incorrect = len(typed)`. -/
theorem counters_sum_to_typed (target : String) (d : Int) (events : List (Msg × Int)) :
    ∃ s, run (NewTestModelWith target d) events = some s ∧
      0 ≤ s.correct ∧ 0 ≤ s.incorrect ∧ s.correct + s.incorrect = s.typed.length := by
  obtain ⟨s, hr, hI, _, _⟩ := run_Inv events _ (Inv_NewTestModelWith target d)
  obtain ⟨_, hk, hi, _⟩ := hI
  have hle := matchCount_le s.typed s.target
  exact ⟨s, hr, by omega, by omega, by omega⟩

/-- C2 (as stated, refuted): in the untimed test of "cat", after 'c' and 'a'
are typed, inserting 't' completes the test, and the backspace that follows is
ignored: the buffer stays "cat" instead of returning to "ca". -/
theorem insert_backspace_counterexample :
    ∃ s s1 s2, run (NewTestModelWith "cat" 0)
        [(charKey 'c', 1), (charKey 'c', 2), (charKey 'a', 3)] = some s ∧
      s.Update (charKey 't') 4 = some (s1, Cmd.nil) ∧
      s1.Update backspaceKey 5 = some (s2, Cmd.nil) ∧
      s.typed = ['c', 'a'] ∧ s2.typed = ['c', 'a', 't'] ∧ s2.cursor = 3 ∧ s.cursor = 2 :=
  ⟨_, _, _, by rfl, by rfl, by rfl, by rfl, by rfl, by rfl, by rfl⟩

/-- C2 (amended): from every state reached from `NewTestModelWith target d`,
inserting a rune and then backspacing brings `typed`, `correct`, `incorrect`
and `cursor` back to their values before the insert, unless the state is
running and untimed and the insert brings the cursor to the length of the
target (or beyond). -/
theorem insert_backspace_restores (target : String) (d : Int) (events : List (Msg × Int))
    (s : TestModel) (c : Char) (t1 t2 : Int)
    (hr : run (NewTestModelWith target d) events = some s)
    (hnc : ¬ (s.started = true ∧ s.done = false ∧ s.duration = 0 ∧
      (s.target.length : Int) ≤ s.cursor + 1)) :
    ∃ s1 c1 s2 c2, s.Update (charKey c) t1 = some (s1, c1) ∧
      s1.Update backspaceKey t2 = some (s2, c2) ∧
      s2.typed = s.typed ∧ s2.correct = s.correct ∧ s2.incorrect = s.incorrect ∧
      s2.cursor = s.cursor := by
  obtain ⟨s', hr', hI, _, _⟩ := run_Inv events _ (Inv_NewTestModelWith target d)
  rw [hr] at hr'
  cases hr'
  exact insert_backspace_Inv s c t1 t2 hI hnc

/-- C3 (as stated, refuted): with target "cat" and duration 0, after the three
key events 'c', 'a', 't' the test is not done: the first key only starts the
test. -/
theorem untimed_completion_counterexample :
    ∃ s, run (NewTestModelWith "cat" 0)
        [(charKey 'c', 1), (charKey 'a', 2), (charKey 't', 3)] = some s ∧
      s.done = false ∧ s.typed = ['a', 't'] :=
  ⟨_, by rfl, by rfl, by rfl⟩

/-- C3 (amended): for a non-empty target of n runes and duration 0, after one
key event that starts the test, typing the first k ≤ n runes of the target
runs to a state that is done exactly when k = n: done after the n-th typed
rune and not before. -/
theorem untimed_completion (target : String) (c0 : Char) (t0 : Int)
    (evs : List (Msg × Int)) (k : Nat)
    (hne : target.data ≠ [])
    (hk : k ≤ target.data.length)
    (hev : evs.map Prod.fst = (target.data.take k).map charKey) :
    ∃ s, run (NewTestModelWith target 0) ((charKey c0, t0) :: evs) = some s ∧
      (s.done = true ↔ k = target.data.length) := by
  have hup : (NewTestModelWith target 0).Update (charKey c0) t0
      = some ({ NewTestModelWith target 0 with started := true, startTime := t0 }, Cmd.nil) := by
    rw [Update_charKey]
    simp [NewTestModelWith]
  have hI : Inv { NewTestModelWith target 0 with started := true, startTime := t0 } := by
    unfold Inv NewTestModelWith
    simp [matchCount]
  have hpos : 0 < target.data.length := List.length_pos.mpr hne
  obtain ⟨r, hr, _, hrd⟩ := run_typing (target.data.take k)
    { NewTestModelWith target 0 with started := true, startTime := t0 } evs hev hI rfl rfl
    (by simp [NewTestModelWith]) (by simpa [NewTestModelWith] using hpos)
    (by simp [NewTestModelWith])
  have htk : (target.data.take k).length = k := by
    rw [List.length_take]
    exact Nat.min_eq_left hk
  refine ⟨r, by simp only [run, hup]; exact hr, ?_⟩
  rw [hrd, htk]
  show 0 + k = target.data.length ↔ k = target.data.length
  rw [Nat.zero_add]

/-- C3 (amended), at "cat": the key events 'x' (starting the test), 'c', 'a',
't' end in a done state. -/
theorem untimed_completion_witness :
    ∃ s, run (NewTestModelWith "cat" 0)
        ((charKey 'x', 0) :: [(charKey 'c', 1), (charKey 'a', 2), (charKey 't', 3)]) = some s ∧
      (s.done = true ↔ 3 = ("cat" : String).data.length) :=
  untimed_completion "cat" 'x' 0 [(charKey 'c', 1), (charKey 'a', 2), (charKey 't', 3)] 3
    (by decide) (by decide) (by decide)

/-- C2 (amended), at a state of the timed test of "ab": after "ab" is typed,
inserting 'c' and backspacing restores the buffer and the counters. -/
theorem insert_backspace_restores_witness :
    ∃ s1 c1 s2 c2,
      (inserted (inserted { NewTestModelWith "ab" Second with started := true, startTime := 1 }
          'a' true) 'b' true).Update (charKey 'c') 4 = some (s1, c1) ∧
      s1.Update backspaceKey 5 = some (s2, c2) ∧
      s2.typed = ['a', 'b'] ∧ s2.correct = 2 ∧ s2.incorrect = 0 ∧ s2.cursor = 2 :=
  insert_backspace_restores "ab" Second
    [(charKey 'a', 1), (charKey 'a', 2), (charKey 'b', 3)] _ 'c' 4 5 (by rfl) (by decide)

/-- C4: a tick delivered at clock value `now`.  On a timed test (duration
positive) that is started and not done: when the elapsed time `now - startTime`
has reached the duration, the next state is the same state with `remaining = 0`,
`done = true` and `endTime = now`, and no tick is requested; when it has not,
the next state is the same state (so still not done) with
`remaining = duration - elapsed`, and one tick is requested.  On a test that
is not started, or done, or untimed, the state is unchanged and no tick is
requested. -/
theorem tick_behaviour (m : TestModel) (t now : Int) :
    (0 < m.duration → m.started = true → m.done = false →
      (m.duration ≤ now - m.startTime →
        m.Update (Msg.tickMsg t) now
          = some ({ m with remaining := 0, done := true, endTime := now }, Cmd.nil)) ∧
      (now - m.startTime < m.duration →
        m.Update (Msg.tickMsg t) now
          = some ({ m with remaining := m.duration - (now - m.startTime) }, Cmd.tick))) ∧
    ((m.started = false ∨ m.done = true ∨ m.duration = 0) →
      m.Update (Msg.tickMsg t) now = some (m, Cmd.nil)) := by
  refine ⟨?_, ?_⟩
  · intro hdur hs hd
    have hne : ¬ m.duration = 0 := by omega
    refine ⟨?_, ?_⟩
    · intro hge
      unfold TestModel.Update Since
      simp [hs, hd, hne, hge]
    · intro hlt
      have hnge : ¬ m.duration ≤ now - m.startTime := by omega
      unfold TestModel.Update Since
      simp [hs, hd, hne, hnge]
  · intro h
    unfold TestModel.Update
    rcases h with h | h | h <;> simp [h]

/-- C4, at the test of "ab" lasting one second and started at clock value 0: a
tick at 1000000000 ends it. -/
theorem tick_behaviour_witness :
    ({ NewTestModelWith "ab" Second with started := true } : TestModel).Update
        (Msg.tickMsg 0) 1000000000
      = some ({ NewTestModelWith "ab" Second with
          started := true, remaining := 0, done := true, endTime := 1000000000 }, Cmd.nil) :=
  ((tick_behaviour { NewTestModelWith "ab" Second with started := true } 0 1000000000).1
    (by decide) (by decide) (by decide)).1 (by decide)

/-- C5: on a running test whose cursor is at or beyond the end of the target,
inserting any rune adds one to `incorrect` and leaves `correct` unchanged; and
in the timed test of "ab", after "abcd" is typed (the first key event only
starts the test), `correct = 2` and `incorrect = 2`, also when the two extra
runes are runes of the target ("abab"). -/
theorem overtyping_counts_incorrect :
    (∀ (m : TestModel) (c : Char) (now : Int),
      m.started = true → m.done = false → (m.target.length : Int) ≤ m.cursor →
      ∃ m1, m.Update (charKey c) now = some (m1, Cmd.nil) ∧
        m1.incorrect = m.incorrect + 1 ∧ m1.correct = m.correct ∧
        m1.typed = m.typed ++ [c]) ∧
    (∃ s, run (NewTestModelWith "ab" Second)
        [(charKey 'a', 0), (charKey 'a', 1), (charKey 'b', 2), (charKey 'c', 3),
          (charKey 'd', 4)] = some s ∧
      s.typed = ['a', 'b', 'c', 'd'] ∧ s.correct = 2 ∧ s.incorrect = 2) ∧
    (∃ s, run (NewTestModelWith "ab" Second)
        [(charKey 'a', 0), (charKey 'a', 1), (charKey 'b', 2), (charKey 'a', 3),
          (charKey 'b', 4)] = some s ∧
      s.typed = ['a', 'b', 'a', 'b'] ∧ s.correct = 2 ∧ s.incorrect = 2) := by
  refine ⟨?_, ⟨_, by rfl, by rfl, by rfl, by rfl⟩, ⟨_, by rfl, by rfl, by rfl, by rfl⟩⟩
  intro m c now hs hd hc
  have h0 : 0 ≤ m.cursor := by omega
  have hnone : m.target[m.cursor.toNat]? = none := by
    apply List.getElem?_eq_none
    omega
  refine ⟨completeStep (inserted m c false) now, ?_, ?_, ?_, ?_⟩
  · rw [Update_charKey, insertStep_eq m c [] h0]
    simp [hs, hd, hnone]
  · unfold completeStep
    split <;> simp [inserted]
  · unfold completeStep
    split <;> simp [inserted]
  · unfold completeStep
    split <;> simp [inserted]

/-- C5, at the running timed test of "ab" with "ab" typed: inserting 'a' is
counted as incorrect. -/
theorem overtyping_counts_incorrect_witness :
    ∃ m1, (inserted (inserted { NewTestModelWith "ab" Second with started := true }
        'a' true) 'b' true).Update (charKey 'a') 7 = some (m1, Cmd.nil) ∧
      m1.incorrect = 0 + 1 ∧ m1.correct = 2 ∧ m1.typed = ['a', 'b'] ++ ['a'] :=
  overtyping_counts_incorrect.1
    (inserted (inserted { NewTestModelWith "ab" Second with started := true } 'a' true) 'b' true)
    'a' 7 (by decide) (by decide) (by decide)

/-- C6: once `done` is true it stays true: for every message (key, the quit
key included, tick, window size or any other) `Update` returns a state with
`done = true` and the same `typed`, `correct`, `incorrect`, `cursor` and
`endTime`; for a key or a tick the state is unchanged altogether. -/
theorem done_is_terminal (m : TestModel) (msg : Msg) (now : Int) (hd : m.done = true) :
    ∃ m1 c, m.Update msg now = some (m1, c) ∧ m1.done = true ∧
      m1.typed = m.typed ∧ m1.correct = m.correct ∧ m1.incorrect = m.incorrect ∧
      m1.cursor = m.cursor ∧ m1.endTime = m.endTime ∧
      ((∀ w h, msg ≠ Msg.WindowSizeMsg w h) → m1 = m) := by
  cases msg with
  | WindowSizeMsg w h =>
    refine ⟨_, _, rfl, hd, rfl, rfl, rfl, rfl, rfl, ?_⟩
    intro hne
    exact absurd rfl (hne w h)
  | tickMsg t =>
    refine ⟨m, Cmd.nil, ?_, hd, rfl, rfl, rfl, rfl, rfl, fun _ => rfl⟩
    unfold TestModel.Update
    simp [hd]
  | other => exact ⟨m, Cmd.nil, rfl, hd, rfl, rfl, rfl, rfl, rfl, fun _ => rfl⟩
  | KeyMsg key =>
    by_cases hq : key.String = "ctrl+c"
    · refine ⟨m, Cmd.Quit, ?_, hd, rfl, rfl, rfl, rfl, rfl, fun _ => rfl⟩
      unfold TestModel.Update
      simp [hq]
    · refine ⟨m, Cmd.nil, ?_, hd, rfl, rfl, rfl, rfl, rfl, fun _ => rfl⟩
      unfold TestModel.Update
      simp [hq, hd]

/-- C6, at the finished untimed test of "a": a further key changes nothing. -/
theorem done_is_terminal_witness :
    ∃ m1 c, (completeStep (inserted { NewTestModelWith "a" 0 with started := true } 'a' true)
        9).Update (charKey 'b') 10 = some (m1, c) ∧ m1.done = true ∧
      m1.typed = ['a'] ∧ m1.correct = 1 ∧ m1.incorrect = 0 ∧
      m1.cursor = 1 ∧ m1.endTime = 9 ∧
      ((∀ w h, charKey 'b' ≠ Msg.WindowSizeMsg w h) → m1 =
        completeStep (inserted { NewTestModelWith "a" 0 with started := true } 'a' true) 9) :=
  done_is_terminal
    (completeStep (inserted { NewTestModelWith "a" 0 with started := true } 'a' true) 9)
    (charKey 'b') 10 (by decide)

/-- C7: on a test that is not started and not done, a key carrying a rune sets
`started`, `startTime = now` and `remaining = duration` and changes no other
field (the rune is not appended: `typed`, `cursor`, `correct`, `incorrect` are
as before); a tick is requested exactly when the duration is positive. -/
theorem first_key_only_starts (m : TestModel) (c : Char) (now : Int)
    (hs : m.started = false) (hd : m.done = false) :
    m.Update (charKey c) now
      = some ({ m with started := true, startTime := now, remaining := m.duration },
          if m.duration > 0 then Cmd.tick else Cmd.nil) := by
  rw [Update_charKey]
  simp [hs, hd]

/-- C7, at the fresh timed test of "ab": the key 'a' starts the clock, requests
a tick and leaves the buffer empty. -/
theorem first_key_only_starts_witness :
    (NewTestModelWith "ab" Second).Update (charKey 'a') 5
      = some ({ NewTestModelWith "ab" Second with
          started := true, startTime := 5, remaining := (NewTestModelWith "ab" Second).duration },
          if (NewTestModelWith "ab" Second).duration > 0 then Cmd.tick else Cmd.nil) :=
  first_key_only_starts (NewTestModelWith "ab" Second) 'a' 5 (by decide) (by decide)

/-- C8: in a running state of the engine (reached from `NewTestModelWith`,
started, not done), a backspace key changes nothing when `typed` is empty;
when `typed` is `rest` followed by `b`, it leaves `rest`, takes one from the
cursor, and takes one from exactly one counter: from `correct` when the removed
position `len(rest)` is inside the target and holds `b` there, from
`incorrect` otherwise.  No other field changes. -/
theorem backspace_removes_last (target : String) (d : Int) (events : List (Msg × Int))
    (s : TestModel) (key : KeyMsg) (now : Int)
    (hr : run (NewTestModelWith target d) events = some s)
    (hs : s.started = true) (hd : s.done = false)
    (hb : key.Typ = KeyType.KeyBackspace ∨ key.String = "backspace" ∨ key.String = "ctrl+h") :
    (s.typed = [] → s.Update (Msg.KeyMsg key) now = some (s, Cmd.nil)) ∧
    (∀ rest b, s.typed = rest ++ [b] →
      s.Update (Msg.KeyMsg key) now
        = some ({ s with
            typed := rest
            cursor := s.cursor - 1
            correct := if s.target[rest.length]? = some b then s.correct - 1 else s.correct
            incorrect :=
              if s.target[rest.length]? = some b then s.incorrect else s.incorrect - 1 },
          Cmd.nil)) := by
  obtain ⟨s', hr', hI, _, _⟩ := run_Inv events _ (Inv_NewTestModelWith target d)
  rw [hr] at hr'
  cases hr'
  refine ⟨?_, ?_⟩
  · intro hnil
    rw [Update_backspace s key now hb, backspaceStep_nil s hnil]
    simp [hs, hd]
  · intro rest b hty
    have hc := hI.1
    rw [hty] at hc
    simp only [List.length_append, List.length_singleton] at hc
    have hpos : s.cursor > 0 := by omega
    rw [Update_backspace s key now hb, backspaceStep_snoc s rest b hty]
    by_cases e : s.target[rest.length]? = some b <;> simp [hs, hd, removed, e, hpos]

/-- C8, at the timed test of "ab" after 'a' and 'x' are typed: backspace removes
the 'x' and takes one from `incorrect`. -/
theorem backspace_removes_last_witness :
    ((inserted (inserted { NewTestModelWith "ab" Second with started := true, startTime := 1 }
        'a' true) 'x' false).typed = [] →
      (inserted (inserted { NewTestModelWith "ab" Second with started := true, startTime := 1 }
        'a' true) 'x' false).Update backspaceKey 9
        = some (inserted (inserted
            { NewTestModelWith "ab" Second with started := true, startTime := 1 }
            'a' true) 'x' false, Cmd.nil)) ∧
    (∀ rest b,
      (inserted (inserted { NewTestModelWith "ab" Second with started := true, startTime := 1 }
        'a' true) 'x' false).typed = rest ++ [b] →
      (inserted (inserted { NewTestModelWith "ab" Second with started := true, startTime := 1 }
        'a' true) 'x' false).Update backspaceKey 9
        = some ({ NewTestModelWith "ab" Second with
            started := true
            startTime := 1
            typed := rest
            cursor := 2 - 1
            correct := if ("ab" : String).data[rest.length]? = some b then 1 - 1 else 1
            incorrect := if ("ab" : String).data[rest.length]? = some b then 1 else 1 - 1 },
          Cmd.nil)) :=
  backspace_removes_last "ab" Second [(charKey 'a', 1), (charKey 'a', 2), (charKey 'x', 3)]
    _ { Typ := KeyType.KeyBackspace, Runes := [], Alt := false, Paste := false } 9
    (by rfl) (by decide) (by decide) (Or.inl rfl)

/-- C9 (as stated, refuted): on the fresh timed test of "cat" an enter key is
not ignored: it starts the test (`started`, `startTime`) and requests a
tick. -/
theorem enter_counterexample :
    (NewTestModelWith "cat" Second).Update enterKey 5
      = some ({ NewTestModelWith "cat" Second with started := true, startTime := 5 }, Cmd.tick) ∧
    (NewTestModelWith "cat" Second).Update enterKey 5
      ≠ some (NewTestModelWith "cat" Second, Cmd.nil) := by
  constructor
  · rfl
  · decide

/-- C9 (amended): on every state that is started or done, an enter key is
ignored: the state after it is the state before it and no tick is requested. -/
theorem enter_ignored_once_started (m : TestModel) (key : KeyMsg) (now : Int)
    (hk : key.Typ = KeyType.KeyEnter) (h : m.started = true ∨ m.done = true) :
    m.Update (Msg.KeyMsg key) now = some (m, Cmd.nil) := by
  obtain ⟨h1, h2, h3, h4⟩ := enter_String key hk
  unfold TestModel.Update
  simp only [h1, h2, h3, h4, hk, pure]
  by_cases hd : m.done = true
  · simp [hd]
  · rcases h with h | h
    · simp [hd, h]
    · exact absurd h hd

/-- C9 (amended), at the started timed test of "cat". -/
theorem enter_ignored_once_started_witness :
    ({ NewTestModelWith "cat" Second with started := true, startTime := 5 } : TestModel).Update
        enterKey 6
      = some ({ NewTestModelWith "cat" Second with started := true, startTime := 5 }, Cmd.nil) :=
  enter_ignored_once_started { NewTestModelWith "cat" Second with started := true, startTime := 5 }
    { Typ := KeyType.KeyEnter, Runes := [], Alt := false, Paste := false } 6 rfl (Or.inl rfl)

theorem Seconds_nonneg (d : Int) (h : 0 ≤ d) : 0 ≤ Seconds d := by
  unfold Seconds
  have : (0 : ℚ) ≤ (d : ℚ) := by exact_mod_cast h
  positivity

/-- The total time `Stats` reports is never negative when the end of the test
is not before its start. -/
theorem Stats_DurationSec_nonneg (m : TestModel)
    (hclock : m.endTime = 0 ∨ m.startTime ≤ m.endTime) : 0 ≤ m.Stats.DurationSec := by
  unfold TestModel.Stats
  simp only
  split
  · rename_i h
    exact Seconds_nonneg _ (by omega)
  · split
    · rename_i h1 h2
      simp [IsZero] at h2
      apply Seconds_nonneg
      unfold Sub
      rcases hclock with h | h
      · exact absurd h h2.2
      · omega
    · exact le_refl _

/-- How `GrossWPM` depends on the total time `Stats` reports. -/
theorem Stats_GrossWPM (m : TestModel) :
    m.Stats.GrossWPM
      = if 0 < m.Stats.DurationSec then (m.typed.length : ℚ) / 5 / (m.Stats.DurationSec / 60)
        else 0 := by
  unfold TestModel.Stats
  simp only
  generalize (if m.duration > 0 then Seconds m.duration
    else if (!IsZero m.startTime && !IsZero m.endTime) = true then
      Seconds (Sub m.endTime m.startTime)
    else 0) = T
  by_cases hT : 0 < T
  · have hmin : 0 < T / 60 := by positivity
    simp only [gt_iff_lt, hT, if_true, hmin]
  · simp only [gt_iff_lt, hT, if_false, lt_irrefl]

/-- C10: `Stats`, over exact arithmetic, on a state whose end time is unset or
not before its start time.  The total time is the duration in seconds when the
test is timed, and `endTime - startTime` in seconds when it is untimed (0 when
either time is unset); `GrossWPM` is `(len(typed)/5)/(totalSec/60)`, or 0 when
the total time is 0; `AccuracyPct` is `correct/len(typed)*100`, or 0 when
nothing is typed; `NetWPM` is `GrossWPM * AccuracyPct/100`.  And the untimed
test of "abcdefghij", typed without error with the last key 60 seconds after
the first, has `GrossWPM = 2`, `AccuracyPct = 100` and `NetWPM = 2`. -/
theorem Stats_formulas :
    (∀ m : TestModel, (m.endTime = 0 ∨ m.startTime ≤ m.endTime) →
      m.Stats.DurationSec
        = (if m.duration > 0 then (m.duration : ℚ) / 1000000000
           else if m.startTime = 0 ∨ m.endTime = 0 then 0
           else ((m.endTime - m.startTime : Int) : ℚ) / 1000000000) ∧
      m.Stats.GrossWPM
        = (if m.Stats.DurationSec = 0 then 0
           else ((m.typed.length : ℚ) / 5) / (m.Stats.DurationSec / 60)) ∧
      m.Stats.AccuracyPct
        = (if m.typed.length = 0 then 0
           else (m.correct : ℚ) / (m.typed.length : ℚ) * 100) ∧
      m.Stats.NetWPM = m.Stats.GrossWPM * (m.Stats.AccuracyPct / 100) ∧
      m.Stats.Correct = m.correct ∧ m.Stats.TotalTyped = m.typed.length) ∧
    (∃ s, run (NewTestModelWith "abcdefghij" 0)
        [(charKey 'a', 1000), (charKey 'a', 1001), (charKey 'b', 1002), (charKey 'c', 1003),
          (charKey 'd', 1004), (charKey 'e', 1005), (charKey 'f', 1006), (charKey 'g', 1007),
          (charKey 'h', 1008), (charKey 'i', 1009), (charKey 'j', 60000001000)] = some s ∧
      s.done = true ∧ s.typed.length = 10 ∧ s.correct = 10 ∧ s.incorrect = 0 ∧
      s.Stats.DurationSec = 60 ∧ s.Stats.GrossWPM = 2 ∧ s.Stats.AccuracyPct = 100 ∧
      s.Stats.NetWPM = 2) := by
  refine ⟨?_, ?_⟩
  · intro m hclock
    have hnn := Stats_DurationSec_nonneg m hclock
    refine ⟨?_, ?_, ?_, rfl, rfl, rfl⟩
    · unfold TestModel.Stats
      simp only
      split
      · rfl
      · by_cases h1 : m.startTime = 0
        · simp [IsZero, h1]
        · by_cases h2 : m.endTime = 0
          · simp [IsZero, h2]
          · simp [IsZero, h1, h2, Seconds, Sub]
    · rw [Stats_GrossWPM]
      by_cases hz : m.Stats.DurationSec = 0
      · rw [if_pos hz, if_neg (by rw [hz]; exact lt_irrefl 0)]
      · rw [if_neg hz, if_pos (lt_of_le_of_ne hnn (Ne.symm hz))]
    · unfold TestModel.Stats
      simp only
      by_cases hl : m.typed.length = 0
      · simp [hl]
      · have : m.typed.length > 0 := Nat.pos_of_ne_zero hl
        simp [hl, this]
  · refine ⟨{ target := ['a', 'b', 'c', 'd', 'e', 'f', 'g', 'h', 'i', 'j']
              typed := ['a', 'b', 'c', 'd', 'e', 'f', 'g', 'h', 'i', 'j']
              cursor := 10
              started := true
              startTime := 1000
              endTime := 60000001000
              duration := 0
              remaining := 0
              done := true
              correct := 10
              incorrect := 0
              width := 0
              height := 0 }, by rfl, by rfl, by rfl, by rfl, by rfl, ?_, ?_, ?_, ?_⟩
    all_goals
      simp only [TestModel.Stats, Seconds, Sub, IsZero]
      norm_num

/-- C10, at a timed test of 60 seconds with "ab" typed, one rune correct: the
end time is unset, and the formulas hold. -/
theorem Stats_formulas_witness :
    (({ NewTestModelWith "ab" (60 * Second) with
        started := true, typed := ['a', 'x'], cursor := 2, correct := 1, incorrect := 1 }
        : TestModel).endTime = 0 ∨
      ({ NewTestModelWith "ab" (60 * Second) with
        started := true, typed := ['a', 'x'], cursor := 2, correct := 1, incorrect := 1 }
        : TestModel).startTime ≤
      ({ NewTestModelWith "ab" (60 * Second) with
        started := true, typed := ['a', 'x'], cursor := 2, correct := 1, incorrect := 1 }
        : TestModel).endTime) ∧
    ({ NewTestModelWith "ab" (60 * Second) with
        started := true, typed := ['a', 'x'], cursor := 2, correct := 1, incorrect := 1 }
        : TestModel).Stats.NetWPM
      = ({ NewTestModelWith "ab" (60 * Second) with
          started := true, typed := ['a', 'x'], cursor := 2, correct := 1, incorrect := 1 }
          : TestModel).Stats.GrossWPM
        * (({ NewTestModelWith "ab" (60 * Second) with
          started := true, typed := ['a', 'x'], cursor := 2, correct := 1, incorrect := 1 }
          : TestModel).Stats.AccuracyPct / 100) :=
  ⟨Or.inl rfl,
    (Stats_formulas.1
      { NewTestModelWith "ab" (60 * Second) with
        started := true, typed := ['a', 'x'], cursor := 2, correct := 1, incorrect := 1 }
      (Or.inl rfl)).2.2.2.1⟩

/-! ## Further properties of the engine -/

theorem matchCount_eq_recountSpec (a t : List Char) : matchCount a t = recountSpec a t := by
  induction a generalizing t with
  | nil => simp [matchCount, recountSpec]
  | cons x xs ih =>
    cases t with
    | nil => simp [matchCount, recountSpec]
    | cons y ys =>
      have hmin : min (x :: xs).length (y :: ys).length = min xs.length ys.length + 1 := by
        simp only [List.length_cons]
        omega
      have hfun : ((fun i => decide ((x :: xs)[i]? = (y :: ys)[i]?)) ∘ Nat.succ)
          = fun i => decide (xs[i]? = ys[i]?) := by
        funext i
        simp
      unfold recountSpec
      rw [hmin, List.range_succ_eq_map, List.countP_cons, List.countP_map, hfun]
      simp only [matchCount, ih ys, recountSpec]
      by_cases h : x = y <;> simp [h]
      omega

theorem UntimedInv_completeStep (m : TestModel) (now : Int)
    (hc : m.cursor = m.typed.length) (hle : m.typed.length ≤ m.target.length)
    (hdur : m.duration = 0) (hd : m.done = false) : UntimedInv (completeStep m now) := by
  unfold completeStep UntimedInv
  by_cases h : m.duration = 0 ∧ m.cursor ≥ m.target.length
  · rw [if_pos h]
    have := h.2
    simp only [true_iff]
    omega
  · rw [if_neg h]
    have hlt : ¬ m.cursor ≥ m.target.length := fun hx => h ⟨hdur, hx⟩
    refine ⟨hle, ?_⟩
    rw [hd]
    constructor
    · intro hx; cases hx
    · intro hx; omega

/-- One step of an untimed test with a non-empty target keeps `UntimedInv`. -/
theorem Update_UntimedInv (m : TestModel) (msg : Msg) (now : Int) (h : Inv m)
    (hdur : m.duration = 0) (hU : UntimedInv m) (m1 : TestModel) (c : Cmd)
    (hup : m.Update msg now = some (m1, c)) : UntimedInv m1 := by
  cases msg with
  | WindowSizeMsg w h1 =>
    simp only [TestModel.Update, pure, Option.some.injEq, Prod.mk.injEq] at hup
    rw [← hup.1]
    exact hU
  | tickMsg t =>
    unfold TestModel.Update at hup
    simp [hdur] at hup
    rw [← hup.1]
    exact hU
  | other =>
    simp only [TestModel.Update, pure, Option.some.injEq, Prod.mk.injEq] at hup
    rw [← hup.1]
    exact hU
  | KeyMsg key =>
    unfold TestModel.Update at hup
    simp only [pure] at hup
    split at hup
    · simp only [Option.some.injEq, Prod.mk.injEq] at hup
      rw [← hup.1]
      exact hU
    split at hup
    · simp only [Option.some.injEq, Prod.mk.injEq] at hup
      rw [← hup.1]
      exact hU
    rename_i hnd
    have hd : m.done = false := by simpa using hnd
    have hlt : m.typed.length < m.target.length := by
      have h1 := hU.1
      have h2 := hU.2
      rw [hd] at h2
      have : ¬ m.typed.length = m.target.length := fun e => by
        have := h2.mpr e
        cases this
      omega
    split at hup
    · split at hup
      · simp only [Option.some.injEq, Prod.mk.injEq] at hup
        rw [← hup.1]
        exact hU
      · simp only [Option.some.injEq, Prod.mk.injEq] at hup
        rw [← hup.1]
        exact hU
    split at hup
    · rcases List.eq_nil_or_concat m.typed with hnil | ⟨rest, b, hsn⟩
      · rw [backspaceStep_nil m hnil] at hup
        simp only [bind, Option.bind, Option.some.injEq, Prod.mk.injEq] at hup
        rw [← hup.1]
        exact hU
      · rw [List.concat_eq_append] at hsn
        rw [backspaceStep_snoc m rest b hsn] at hup
        simp only [bind, Option.bind, Option.some.injEq, Prod.mk.injEq] at hup
        rw [← hup.1]
        have hl : m.typed.length = rest.length + 1 := by simp [hsn]
        unfold UntimedInv removed
        simp only
        refine ⟨by omega, ?_⟩
        rw [hd]
        constructor
        · intro hx; cases hx
        · intro hx; omega
    split at hup
    · simp only [Option.some.injEq, Prod.mk.injEq] at hup
      rw [← hup.1]
      exact hU
    · cases hr : key.Runes with
      | nil =>
        rw [hr] at hup
        simp only [insertStep, pure, bind, Option.bind, Option.some.injEq, Prod.mk.injEq] at hup
        rw [← hup.1]
        exact UntimedInv_completeStep m now h.1 hU.1 hdur hd
      | cons ch r =>
        have h0 : 0 ≤ m.cursor := by rw [h.1]; omega
        rw [hr, insertStep_eq m ch r h0] at hup
        simp only [bind, Option.bind, Option.some.injEq, Prod.mk.injEq] at hup
        rw [← hup.1]
        apply UntimedInv_completeStep
        · have := h.1
          simp only [inserted, List.length_append, List.length_singleton]
          push_cast
          omega
        · simp only [inserted, List.length_append, List.length_singleton]
          omega
        · exact hdur
        · exact hd

/-- Every run of an untimed test with a non-empty target keeps `UntimedInv`. -/
theorem run_UntimedInv (events : List (Msg × Int)) (m : TestModel) (h : Inv m)
    (hdur : m.duration = 0) (hU : UntimedInv m) (s : TestModel)
    (hr : run m events = some s) : UntimedInv s := by
  induction events generalizing m with
  | nil =>
    simp only [run, Option.some.injEq] at hr
    rw [← hr]
    exact hU
  | cons e rest ih =>
    obtain ⟨msg, now⟩ := e
    obtain ⟨m1, c, hu, hI, _, hd⟩ := Update_Inv m msg now h
    simp only [run, hu] at hr
    exact ih m1 hI (hd.trans hdur) (Update_UntimedInv m msg now h hdur hU m1 c hu) hr

/-- What a step of a timed test does to `done`. -/
theorem Update_done_timed (m : TestModel) (msg : Msg) (now : Int) (h : Inv m)
    (hdur : 0 < m.duration) (m1 : TestModel) (c : Cmd)
    (hup : m.Update msg now = some (m1, c)) :
    ((∃ key, msg = Msg.KeyMsg key) → m1.done = m.done) ∧
    (m.done = false → m1.done = true →
      ∃ t, msg = Msg.tickMsg t ∧ m.started = true ∧ m.duration ≤ now - m.startTime) := by
  have hne : ¬ m.duration = 0 := by omega
  have hcs : ∀ x : TestModel, x.duration = m.duration → completeStep x now = x := by
    intro x hx
    unfold completeStep
    rw [if_neg]
    intro hh
    exact hne (hx ▸ hh.1)
  cases msg with
  | WindowSizeMsg w h1 =>
    simp only [TestModel.Update, pure, Option.some.injEq, Prod.mk.injEq] at hup
    rw [← hup.1]
    refine ⟨fun _ => rfl, ?_⟩
    intro h1 h2
    simp only [h1] at h2
    cases h2
  | other =>
    simp only [TestModel.Update, pure, Option.some.injEq, Prod.mk.injEq] at hup
    rw [← hup.1]
    refine ⟨fun _ => rfl, ?_⟩
    intro h1 h2
    rw [h1] at h2
    cases h2
  | tickMsg t =>
    refine ⟨fun hx => (by obtain ⟨key, hk⟩ := hx; cases hk), ?_⟩
    intro hd hd1
    unfold TestModel.Update Since at hup
    simp only [pure] at hup
    split at hup
    · simp only [Option.some.injEq, Prod.mk.injEq] at hup
      rw [← hup.1, hd] at hd1
      cases hd1
    · rename_i hg
      simp only [Bool.or_eq_true, Bool.not_eq_true', beq_iff_eq, not_or] at hg
      split at hup
      · rename_i hge
        exact ⟨t, rfl, by simpa using hg.1.1, hge⟩
      · simp only [Option.some.injEq, Prod.mk.injEq] at hup
        rw [← hup.1] at hd1
        simp only [hd] at hd1
        cases hd1
  | KeyMsg key =>
    have hkey : m1.done = m.done := by
      unfold TestModel.Update at hup
      simp only [pure] at hup
      split at hup
      · simp only [Option.some.injEq, Prod.mk.injEq] at hup
        rw [← hup.1]
      split at hup
      · simp only [Option.some.injEq, Prod.mk.injEq] at hup
        rw [← hup.1]
      split at hup
      · simp only [Option.some.injEq, Prod.mk.injEq] at hup
        rw [← hup.1]
      split at hup
      · rcases List.eq_nil_or_concat m.typed with hnil | ⟨rest, b, hsn⟩
        · rw [backspaceStep_nil m hnil] at hup
          simp only [bind, Option.bind, Option.some.injEq, Prod.mk.injEq] at hup
          rw [← hup.1]
        · rw [List.concat_eq_append] at hsn
          rw [backspaceStep_snoc m rest b hsn] at hup
          simp only [bind, Option.bind, Option.some.injEq, Prod.mk.injEq] at hup
          rw [← hup.1]
          rfl
      split at hup
      · simp only [Option.some.injEq, Prod.mk.injEq] at hup
        rw [← hup.1]
      · cases hr : key.Runes with
        | nil =>
          rw [hr] at hup
          simp only [insertStep, pure, bind, Option.bind, Option.some.injEq,
            Prod.mk.injEq] at hup
          rw [← hup.1, hcs m rfl]
        | cons ch r =>
          have h0 : 0 ≤ m.cursor := by rw [h.1]; omega
          rw [hr, insertStep_eq m ch r h0] at hup
          simp only [bind, Option.bind, Option.some.injEq, Prod.mk.injEq] at hup
          rw [← hup.1, hcs (inserted m ch (decide (m.target[m.cursor.toNat]? = some ch))) rfl]
          rfl
    refine ⟨fun _ => hkey, ?_⟩
    intro h1 h2
    rw [hkey, h1] at h2
    cases h2

/-- C15: in every state reached from `NewTestModelWith target d` by any
sequence of events (every such sequence runs to a state), the cursor is the
length of the typed buffer. -/
theorem cursor_is_typed_length (target : String) (d : Int) (events : List (Msg × Int)) :
    ∃ s, run (NewTestModelWith target d) events = some s ∧ s.cursor = s.typed.length := by
  obtain ⟨s, hr, hI, _, _⟩ := run_Inv events _ (Inv_NewTestModelWith target d)
  exact ⟨s, hr, hI.1⟩

/-- C17: in timed mode (duration positive), from every state the engine can
reach, `Update` returns for every message; a key event of any kind leaves `done`
as it was, whatever the cursor; and `done` goes from false to true only on a
tick, of a started test, whose elapsed time `now - startTime` has reached the
duration. -/
theorem timed_done_only_by_tick (target : String) (d : Int) (events : List (Msg × Int))
    (s : TestModel) (msg : Msg) (now : Int) (hd : 0 < d)
    (hr : run (NewTestModelWith target d) events = some s) :
    ∃ s1 c, s.Update msg now = some (s1, c) ∧
      ((∃ key, msg = Msg.KeyMsg key) → s1.done = s.done) ∧
      (s.done = false → s1.done = true →
        ∃ t, msg = Msg.tickMsg t ∧ s.started = true ∧ d ≤ now - s.startTime) := by
  obtain ⟨s', hr', hI, _, hdur⟩ := run_Inv events _ (Inv_NewTestModelWith target d)
  rw [hr] at hr'
  cases hr'
  have hsd : s.duration = d := by
    rw [hdur]
    simp only [NewTestModelWith]
    rw [if_neg (by omega)]
  obtain ⟨s1, c, hup, _, _, _⟩ := Update_Inv s msg now hI
  have key := Update_done_timed s msg now hI (by omega) s1 c hup
  rw [hsd] at key
  exact ⟨s1, c, hup, key⟩

/-- C17, at the timed test of "ab" with "ab" typed: the key 'c' takes the
cursor past the target and the test is still not done. -/
theorem timed_done_only_by_tick_witness :
    ∃ s1 c, (inserted (inserted { NewTestModelWith "ab" Second with started := true, startTime := 1 }
        'a' true) 'b' true).Update (charKey 'c') 4 = some (s1, c) ∧
      ((∃ key, charKey 'c' = Msg.KeyMsg key) → s1.done = false) ∧
      (false = false → s1.done = true →
        ∃ t, charKey 'c' = Msg.tickMsg t ∧ true = true ∧ Second ≤ 4 - 1) :=
  timed_done_only_by_tick "ab" Second [(charKey 'a', 1), (charKey 'a', 2), (charKey 'b', 3)]
    _ (charKey 'c') 4 (by decide) (by rfl)

/-- C20: in untimed mode (a duration of 0, or a negative one, which is clamped
to 0) with a non-empty target, every sequence of events runs to a state in
which `len(typed) ≤ len(target)`, and which is done exactly when
`len(typed) = len(target)`. -/
theorem untimed_never_overtyped (target : String) (d : Int) (events : List (Msg × Int))
    (hne : target.data ≠ []) (hd : d ≤ 0) :
    ∃ s, run (NewTestModelWith target d) events = some s ∧
      s.typed.length ≤ s.target.length ∧
      (s.done = true ↔ s.typed.length = s.target.length) := by
  obtain ⟨s, hr, _, _, _⟩ := run_Inv events _ (Inv_NewTestModelWith target d)
  have hdur : (NewTestModelWith target d).duration = 0 := by
    simp only [NewTestModelWith]
    split <;> omega
  have hpos : 0 < target.data.length := List.length_pos.mpr hne
  have hU : UntimedInv (NewTestModelWith target d) := by
    unfold UntimedInv NewTestModelWith
    simp only [List.length_nil]
    refine ⟨Nat.zero_le _, ?_⟩
    constructor
    · intro hx; cases hx
    · intro hx; omega
  exact ⟨s, hr, run_UntimedInv events _ (Inv_NewTestModelWith target d) hdur hU s hr⟩

/-- C20, at the untimed test of "ab" after the keys 'x' (starting the test),
'a' and 'b'. -/
theorem untimed_never_overtyped_witness :
    ∃ s, run (NewTestModelWith "ab" 0) [(charKey 'x', 1), (charKey 'a', 2), (charKey 'b', 3)]
        = some s ∧
      s.typed.length ≤ s.target.length ∧
      (s.done = true ↔ s.typed.length = s.target.length) :=
  untimed_never_overtyped "ab" 0 [(charKey 'x', 1), (charKey 'a', 2), (charKey 'b', 3)]
    (by decide) (by decide)

/-! ## The renderer: visible length and centering -/

/-- The four style sequences the renderer puts in front of a rune. -/
theorem visualStep_styles (n : Nat) (st : Bytes)
    (h : st ∈ [bold ++ green, bold ++ red, bold ++ ul ++ white, bold ++ dim ++ white]) :
    st.foldl visualStep (n, false) = (n, false) := by
  simp only [List.mem_cons, List.mem_singleton, List.not_mem_nil, or_false] at h
  rcases h with h | h | h | h <;> subst h <;> rfl

theorem visualStep_reset (n : Nat) : reset.foldl visualStep (n, false) = (n, false) := rfl

/-- The bytes of a rune that is neither ESC nor newline are all counted. -/
theorem visualStep_utf8 (n : Nat) (ch : Char) (h1 : ch.toNat ≠ 0x1b) (h2 : ch.toNat ≠ 10) :
    (utf8 ch).foldl visualStep (n, false) = (n + (utf8 ch).length, false) := by
  unfold utf8
  simp only
  split
  · simp [visualStep, h1, h2]
  · split
    · have a1 : ¬ (0xC0 + ch.toNat / 0x40 = 0x1b) := by omega
      have a2 : ¬ (0xC0 + ch.toNat / 0x40 = 10) := by omega
      have b1 : ¬ (0x80 + ch.toNat % 0x40 = 0x1b) := by omega
      have b2 : ¬ (0x80 + ch.toNat % 0x40 = 10) := by omega
      simp [visualStep, a1, a2, b1, b2]
    · split
      · have a1 : ¬ (0xE0 + ch.toNat / 0x1000 = 0x1b) := by omega
        have a2 : ¬ (0xE0 + ch.toNat / 0x1000 = 10) := by omega
        have b1 : ¬ (0x80 + ch.toNat / 0x40 % 0x40 = 0x1b) := by omega
        have b2 : ¬ (0x80 + ch.toNat / 0x40 % 0x40 = 10) := by omega
        have c1 : ¬ (0x80 + ch.toNat % 0x40 = 0x1b) := by omega
        have c2 : ¬ (0x80 + ch.toNat % 0x40 = 10) := by omega
        simp [visualStep, a1, a2, b1, b2, c1, c2]
      · have a1 : ¬ (0xF0 + ch.toNat / 0x40000 = 0x1b) := by omega
        have a2 : ¬ (0xF0 + ch.toNat / 0x40000 = 10) := by omega
        have b1 : ¬ (0x80 + ch.toNat / 0x1000 % 0x40 = 0x1b) := by omega
        have b2 : ¬ (0x80 + ch.toNat / 0x1000 % 0x40 = 10) := by omega
        have c1 : ¬ (0x80 + ch.toNat / 0x40 % 0x40 = 0x1b) := by omega
        have c2 : ¬ (0x80 + ch.toNat / 0x40 % 0x40 = 10) := by omega
        have d1 : ¬ (0x80 + ch.toNat % 0x40 = 0x1b) := by omega
        have d2 : ¬ (0x80 + ch.toNat % 0x40 = 10) := by omega
        simp [visualStep, a1, a2, b1, b2, c1, c2, d1, d2]

theorem utf8_length_ascii (ch : Char) (h : ch.toNat < 128) : (utf8 ch).length = 1 := by
  unfold utf8
  simp [h]

/-- The scan of `visualLen` over a line of styled runes: every byte of every
rune is counted, and nothing else. -/
theorem visualStep_cells (cells : List (Bytes × Char)) (n : Nat)
    (h : ∀ p ∈ cells,
      p.1 ∈ [bold ++ green, bold ++ red, bold ++ ul ++ white, bold ++ dim ++ white] ∧
      p.2.toNat ≠ 0x1b ∧ p.2.toNat ≠ 10) :
    (cells.flatMap fun p => p.1 ++ utf8 p.2 ++ reset).foldl visualStep (n, false)
      = (n + (cells.map fun p => (utf8 p.2).length).sum, false) := by
  induction cells generalizing n with
  | nil => rfl
  | cons p rest ih =>
    obtain ⟨hst, h1, h2⟩ := h p (List.mem_cons_self _ _)
    simp only [List.flatMap_cons, List.foldl_append, List.map_cons, List.sum_cons]
    rw [visualStep_styles n p.1 hst, visualStep_utf8 n p.2 h1 h2, visualStep_reset,
      ih _ (fun q hq => h q (List.mem_cons_of_mem _ hq))]
    rw [Nat.add_assoc]

theorem visualLen_cells (cells : List (Bytes × Char))
    (h : ∀ p ∈ cells,
      p.1 ∈ [bold ++ green, bold ++ red, bold ++ ul ++ white, bold ++ dim ++ white] ∧
      p.2.toNat ≠ 0x1b ∧ p.2.toNat ≠ 10) :
    visualLen (cells.flatMap fun p => p.1 ++ utf8 p.2 ++ reset)
      = (cells.map fun p => (utf8 p.2).length).sum := by
  unfold visualLen
  rw [visualStep_cells cells 0 h]
  simp

theorem sum_utf8_ascii (cells : List (Bytes × Char)) (h : ∀ p ∈ cells, p.2.toNat < 128) :
    (cells.map fun p => (utf8 p.2).length).sum = cells.length := by
  induction cells with
  | nil => rfl
  | cons p rest ih =>
    simp only [List.map_cons, List.sum_cons, List.length_cons]
    rw [utf8_length_ascii p.2 (h p (List.mem_cons_self _ _)),
      ih (fun q hq => h q (List.mem_cons_of_mem _ hq))]
    omega

/-- The padding computed with Go's division is the padding of the
specification. -/
theorem pad_amount (x : Int) :
    (if Int.tdiv x 2 < 0 then 0 else Int.tdiv x 2) = max 0 (x / 2) := by
  by_cases hx : 0 ≤ x
  · rw [Int.tdiv_eq_ediv hx (by decide)]
    omega
  · have h1 : 0 ≤ Int.tdiv (-x) 2 := Int.tdiv_nonneg (by omega) (by decide)
    have h2 : Int.tdiv x 2 = - Int.tdiv (-x) 2 := by
      rw [← Int.neg_tdiv, Int.neg_neg]
    have h3 : x / 2 < 0 := by omega
    split <;> omega

theorem padLine_eq (width : Int) (ln : Bytes) (hw : 0 < width) :
    padLine width ln
      = List.replicate (max 0 ((width - visualLen ln) / 2)).toNat 32 ++ ln := by
  unfold padLine spaces
  simp only [gt_iff_lt, hw, if_true]
  rw [pad_amount]

/-- C16 (as stated, refuted): the one-character text "é", rendered in the
pending style, has visible length 2: `visualLen` counts the two bytes of its
UTF-8 encoding. -/
theorem visualLen_counterexample :
    visualLen ((bold ++ dim ++ white) ++ utf8 'é' ++ reset) = 2 ∧ ['é'].length = 1 := by
  constructor
  · rfl
  · rfl

/-- C16 (amended): for every text without ESC and newline, each rune wrapped in
one of the renderer's style sequences and the reset sequence, `visualLen` of
the rendered line is the number of bytes of the UTF-8 encoding of the text; it
is the number of runes when every rune is ASCII (below 128). -/
theorem visualLen_counts_bytes (cells : List (Bytes × Char))
    (h : ∀ p ∈ cells,
      p.1 ∈ [bold ++ green, bold ++ red, bold ++ ul ++ white, bold ++ dim ++ white] ∧
      p.2.toNat ≠ 0x1b ∧ p.2.toNat ≠ 10) :
    visualLen (cells.flatMap fun p => p.1 ++ utf8 p.2 ++ reset)
        = (cells.map fun p => (utf8 p.2).length).sum ∧
      ((∀ p ∈ cells, p.2.toNat < 128) →
        visualLen (cells.flatMap fun p => p.1 ++ utf8 p.2 ++ reset) = cells.length) := by
  refine ⟨visualLen_cells cells h, ?_⟩
  intro hascii
  rw [visualLen_cells cells h, sum_utf8_ascii cells hascii]

/-- C16 (amended), at the text "aé" with 'a' styled correct and 'é' pending:
three bytes are counted. -/
theorem visualLen_counts_bytes_witness :
    visualLen ([(bold ++ green, 'a'), (bold ++ dim ++ white, 'é')].flatMap
        fun p => p.1 ++ utf8 p.2 ++ reset)
        = ([(bold ++ green, 'a'), (bold ++ dim ++ white, 'é')].map
            fun p => (utf8 p.2).length).sum ∧
      ((∀ p ∈ [(bold ++ green, 'a'), (bold ++ dim ++ white, 'é')], p.2.toNat < 128) →
        visualLen ([(bold ++ green, 'a'), (bold ++ dim ++ white, 'é')].flatMap
          fun p => p.1 ++ utf8 p.2 ++ reset)
          = [(bold ++ green, 'a'), (bold ++ dim ++ white, 'é')].length) :=
  visualLen_counts_bytes [(bold ++ green, 'a'), (bold ++ dim ++ white, 'é')] (by decide)

/-- C12: at every viewport width `w > 0`, `View` is some blank lines on top
followed by its lines joined by newlines, the lines being the lines of the
styled text, a blank line and the statistics line, each prefixed with exactly
`max(0, (w - visualLen(line)) / 2)` spaces.  A line of visible length 10 is
prefixed with 5 spaces at width 20; this holds of every line of 10 ASCII runes
(no ESC, no newline) whatever the style of each rune. -/
theorem View_centers_lines :
    (∀ (m : TestModel) (now : Int) (Sprintf : ℚ → ℚ → Int → ℚ → Bytes), 0 < m.width →
      ∃ top : Nat, m.View now Sprintf
        = List.replicate top 10 ++
          Join ((Split m.raw ++ [[]] ++ [m.statLine now Sprintf]).map fun ln =>
            List.replicate (max 0 ((m.width - visualLen ln) / 2)).toNat 32 ++ ln)) ∧
    (∀ ln : Bytes, visualLen ln = 10 → padLine 20 ln = List.replicate 5 32 ++ ln) ∧
    (∀ cells : List (Bytes × Char), cells.length = 10 →
      (∀ p ∈ cells,
        p.1 ∈ [bold ++ green, bold ++ red, bold ++ ul ++ white, bold ++ dim ++ white] ∧
        p.2.toNat ≠ 0x1b ∧ p.2.toNat ≠ 10 ∧ p.2.toNat < 128) →
      padLine 20 (cells.flatMap fun p => p.1 ++ utf8 p.2 ++ reset)
        = List.replicate 5 32 ++ (cells.flatMap fun p => p.1 ++ utf8 p.2 ++ reset)) := by
  have h10 : ∀ ln : Bytes, visualLen ln = 10 → padLine 20 ln = List.replicate 5 32 ++ ln := by
    intro ln hv
    rw [padLine_eq 20 ln (by decide), hv]
    rfl
  refine ⟨?_, h10, ?_⟩
  · intro m now Sprintf hw
    have hfun : padLine m.width = fun ln =>
        List.replicate (max 0 ((m.width - visualLen ln) / 2)).toNat 32 ++ ln := by
      funext ln
      exact padLine_eq m.width ln hw
    unfold TestModel.View TestModel.parts
    simp only
    rw [hfun]
    exact ⟨_, rfl⟩
  · intro cells hlen h
    apply h10
    rw [visualLen_cells cells (fun p hp => ⟨(h p hp).1, (h p hp).2.1, (h p hp).2.2.1⟩),
      sum_utf8_ascii cells (fun p hp => (h p hp).2.2.2), hlen]

/-- C12, at the fresh test of "ab" in a viewport of width 20. -/
theorem View_centers_lines_witness :
    ∃ top : Nat, ({ NewTestModelWith "ab" 0 with width := 20 } : TestModel).View 0
        (fun _ _ _ _ => str "WPM")
      = List.replicate top 10 ++
        Join ((Split ({ NewTestModelWith "ab" 0 with width := 20 } : TestModel).raw ++ [[]] ++
            [({ NewTestModelWith "ab" 0 with width := 20 } : TestModel).statLine 0
              (fun _ _ _ _ => str "WPM")]).map fun ln =>
          List.replicate (max 0
            ((({ NewTestModelWith "ab" 0 with width := 20 } : TestModel).width - visualLen ln)
              / 2)).toNat 32 ++ ln) :=
  View_centers_lines.1 { NewTestModelWith "ab" 0 with width := 20 } 0
    (fun _ _ _ _ => str "WPM") (by decide)

/-! ## The renderer: styling -/

/-- One iteration of the styling loop appends, after the newline of a line
break, the rune of the position in the style of the specification. -/
theorem emitStep_eq (m : TestModel) (nl : List Bool) (out : Bytes) (p : Nat × Char)
    (hp : m.target[p.1]? = some p.2) :
    emitStep m nl out p
      = out ++ ((if p.1 > 0 ∧ nl.getD (p.1 - 1) false = true then [10] else []) ++
          styleSpec m p.1 ++ utf8 p.2 ++ reset) := by
  have hout : (if p.1 > 0 ∧ nl.getD (p.1 - 1) false = true then out ++ [10] else out)
      = out ++ (if p.1 > 0 ∧ nl.getD (p.1 - 1) false = true then [10] else []) := by
    split
    · rfl
    · rw [List.append_nil]
  unfold emitStep styleSpec
  rw [hp]
  simp only [hout]
  generalize (if p.1 > 0 ∧ nl.getD (p.1 - 1) false = true then [10] else []) = brk
  by_cases h1 : p.1 < m.typed.length
  · by_cases h2 : m.typed[p.1]? = some p.2
    · rw [if_pos h1, if_pos h2, if_pos ⟨h1, h2⟩]
      simp only [List.append_assoc]
    · rw [if_pos h1, if_neg h2, if_neg (fun h => h2 h.2), if_pos ⟨h1, h2⟩]
      simp only [List.append_assoc]
  · have n1 : ¬ (p.1 < m.typed.length ∧ m.typed[p.1]? = some p.2) := fun h => h1 h.1
    have n2 : ¬ (p.1 < m.typed.length ∧ m.typed[p.1]? ≠ some p.2) := fun h => h1 h.1
    rw [if_neg h1, if_neg n1, if_neg n2]
    by_cases h3 : p.1 = m.typed.length ∧ m.done = false
    · rw [if_pos h3, if_pos h3]
      simp only [List.append_assoc]
    · rw [if_neg h3, if_neg h3]
      simp only [List.append_assoc]

theorem emit_fold (m : TestModel) (nl : List Bool) (l : List (Nat × Char)) (out : Bytes)
    (hmem : ∀ p ∈ l, m.target[p.1]? = some p.2) :
    l.foldl (emitStep m nl) out
      = out ++ l.flatMap (fun p =>
          (if p.1 > 0 ∧ nl.getD (p.1 - 1) false = true then [10] else []) ++
            styleSpec m p.1 ++ utf8 p.2 ++ reset) := by
  induction l generalizing out with
  | nil => simp
  | cons p rest ih =>
    rw [List.foldl_cons, emitStep_eq m nl out p (hmem p (List.mem_cons_self _ _)),
      ih _ (fun q hq => hmem q (List.mem_cons_of_mem _ hq))]
    simp only [List.flatMap_cons, List.append_assoc]

theorem raw_eq (m : TestModel) :
    m.raw = m.target.enum.flatMap (fun p =>
      (if p.1 > 0 ∧ (newlineAt (maxW m.width) m.target).getD (p.1 - 1) false = true
        then [10] else []) ++ styleSpec m p.1 ++ utf8 p.2 ++ reset) := by
  unfold TestModel.raw
  rw [emit_fold m _ m.target.enum []
    (fun p hp => List.mk_mem_enum_iff_getElem?.mp hp)]
  simp

/-- Only the position at the end of the typed buffer of a test that is not
done is styled as caret. -/
theorem styleSpec_caret (m : TestModel) (i : Nat)
    (h : styleSpec m i = bold ++ ul ++ white) : i = m.typed.length ∧ m.done = false := by
  unfold styleSpec at h
  split at h
  · exact absurd h (by decide)
  · split at h
    · exact absurd h (by decide)
    · split at h
      · assumption
      · exact absurd h (by decide)

theorem caret_count_le_one (m : TestModel) (n : Nat) :
    (List.range n).countP (fun i => decide (styleSpec m i = bold ++ ul ++ white)) ≤ 1 := by
  have h1 : (List.range n).countP (fun i => decide (styleSpec m i = bold ++ ul ++ white))
      ≤ (List.range n).countP (fun i => i == m.typed.length) := by
    apply List.countP_mono_left
    intro i _ hi
    have := (styleSpec_caret m i (by simpa using hi)).1
    simp [this]
  have h2 : (List.range n).countP (fun i => i == m.typed.length)
      = (List.range n).count m.typed.length := by
    rw [List.count_eq_countP]
  have h3 := List.nodup_iff_count_le_one.mp (List.nodup_range n) m.typed.length
  omega

theorem caret_count_done (m : TestModel) (n : Nat) (hd : m.done = true) :
    (List.range n).countP (fun i => decide (styleSpec m i = bold ++ ul ++ white)) = 0 := by
  rw [List.countP_eq_zero]
  intro i _ hi
  have := (styleSpec_caret m i (by simpa using hi)).2
  rw [hd] at this
  cases this

/-- C14: the styled text `raw` that `View` centers is, position by position of
the target, the newline of a line break (if one was chosen just before the
position) followed by the rune `target[i]` between exactly one style sequence
and the reset sequence; the style is that of the specification (`styleSpec`:
correct when `i < len(typed)` and `typed[i] = target[i]`, incorrect when
`i < len(typed)` and they differ, caret when `i = len(typed)` and not done,
pending otherwise).  At most one position is styled as caret, and none when
the test is done. -/
theorem View_styles_each_position (m : TestModel) :
    m.raw = m.target.enum.flatMap (fun p =>
        (if p.1 > 0 ∧ (newlineAt (maxW m.width) m.target).getD (p.1 - 1) false = true
          then [10] else []) ++ styleSpec m p.1 ++ utf8 p.2 ++ reset) ∧
      (List.range m.target.length).countP
        (fun i => decide (styleSpec m i = bold ++ ul ++ white)) ≤ 1 ∧
      (m.done = true →
        (List.range m.target.length).countP
          (fun i => decide (styleSpec m i = bold ++ ul ++ white)) = 0) :=
  ⟨raw_eq m, caret_count_le_one m _, caret_count_done m _⟩

/-- C14, at the finished untimed test of "a": no position is styled as
caret. -/
theorem View_styles_each_position_witness :
    (List.range 1).countP
      (fun i => decide (styleSpec
        (completeStep (inserted { NewTestModelWith "a" 0 with started := true } 'a' true) 9) i
          = bold ++ ul ++ white)) = 0 :=
  (View_styles_each_position
    (completeStep (inserted { NewTestModelWith "a" 0 with started := true } 'a' true) 9)).2.2
    (by decide)

/-! ## The renderer: the default width -/

theorem Join_length (L : List Bytes) (h : L ≠ []) :
    (Join L).length + 1 = (L.map fun x => x.length + 1).sum := by
  induction L with
  | nil => exact absurd rfl h
  | cons a rest ih =>
    cases rest with
    | nil => simp [Join]
    | cons b rest =>
      have := ih (by simp)
      simp only [Join, List.length_append, List.length_singleton, List.map_cons,
        List.sum_cons] at this ⊢
      omega

theorem sum_lengths_le (P : List Bytes) (f g : Bytes → Bytes)
    (hle : ∀ ln, (f ln).length ≤ (g ln).length) :
    ((P.map f).map fun x => x.length + 1).sum ≤ ((P.map g).map fun x => x.length + 1).sum := by
  induction P with
  | nil => simp
  | cons a rest ih =>
    have := hle a
    simp only [List.map_cons, List.sum_cons]
    omega

theorem sum_lengths_lt (P : List Bytes) (f g : Bytes → Bytes)
    (hle : ∀ ln, (f ln).length ≤ (g ln).length)
    (hlt : ∃ ln ∈ P, (f ln).length < (g ln).length) :
    ((P.map f).map fun x => x.length + 1).sum < ((P.map g).map fun x => x.length + 1).sum := by
  induction P with
  | nil =>
    obtain ⟨ln, hmem, _⟩ := hlt
    cases hmem
  | cons a rest ih =>
    have h1 := hle a
    have h2 := sum_lengths_le rest f g hle
    simp only [List.map_cons, List.sum_cons]
    obtain ⟨ln, hmem, hl⟩ := hlt
    rcases List.mem_cons.mp hmem with e | hin
    · subst e
      omega
    · have := ih ⟨ln, hin, hl⟩
      omega

theorem padLine_zero (ln : Bytes) : padLine 0 ln = ln := by
  unfold padLine spaces
  simp

theorem padLine_length_ge (w : Int) (ln : Bytes) : ln.length ≤ (padLine w ln).length := by
  unfold padLine
  simp

/-- The lines `View` centers do not depend on whether the width is 0 or 80: the
wrapping width is 76 in both cases. -/
theorem parts_width_zero (m : TestModel) (now : Int) (Sprintf : ℚ → ℚ → Int → ℚ → Bytes) :
    ({ m with width := 0 } : TestModel).parts now Sprintf
      = ({ m with width := 80 } : TestModel).parts now Sprintf := rfl

theorem parts_ne_nil (m : TestModel) (now : Int) (Sprintf : ℚ → ℚ → Int → ℚ → Bytes) :
    m.parts now Sprintf ≠ [] := by
  unfold TestModel.parts
  simp

theorem blank_mem_parts (m : TestModel) (now : Int) (Sprintf : ℚ → ℚ → Int → ℚ → Bytes) :
    [] ∈ m.parts now Sprintf := by
  unfold TestModel.parts
  simp

/-- C13 (the code evaluated): for every state, `View` at width 0 differs from
`View` at width 80 and the same height: at width 0 no line is padded, at width
80 every line is centered (the blank separator line alone gets 40 spaces), so
the display at width 80 is strictly longer.  For the fresh test of "ab" the
display at width 0 starts with the escape byte of the first style sequence,
the display at width 80 with 39 spaces. -/
theorem View_width_zero_differs :
    (∀ (m : TestModel) (now : Int) (Sprintf : ℚ → ℚ → Int → ℚ → Bytes),
      (({ m with width := 0 } : TestModel).View now Sprintf).length
        < (({ m with width := 80 } : TestModel).View now Sprintf).length ∧
      ({ m with width := 0 } : TestModel).View now Sprintf
        ≠ ({ m with width := 80 } : TestModel).View now Sprintf) ∧
    (∀ (now : Int) (Sprintf : ℚ → ℚ → Int → ℚ → Bytes),
      (({ NewTestModelWith "ab" 0 with width := 0 } : TestModel).View now Sprintf).take 1
        = [0x1b] ∧
      (({ NewTestModelWith "ab" 0 with width := 80 } : TestModel).View now Sprintf).take 40
        = List.replicate 39 32 ++ [0x1b]) := by
  have hlen : ∀ (m : TestModel) (now : Int) (Sprintf : ℚ → ℚ → Int → ℚ → Bytes),
      (({ m with width := 0 } : TestModel).View now Sprintf).length
        < (({ m with width := 80 } : TestModel).View now Sprintf).length := by
    intro m now Sprintf
    have hp := parts_width_zero m now Sprintf
    have hne := parts_ne_nil ({ m with width := 80 } : TestModel) now Sprintf
    have hbl := blank_mem_parts ({ m with width := 80 } : TestModel) now Sprintf
    unfold TestModel.View
    simp only [hp, List.length_append, List.length_map]
    generalize ({ m with width := 80 } : TestModel).parts now Sprintf = P at hne hbl
    have h0 := Join_length (P.map (padLine 0)) (by simpa using hne)
    have h80 := Join_length (P.map (padLine 80)) (by simpa using hne)
    have hlt := sum_lengths_lt P (padLine 0) (padLine 80)
      (fun ln => by rw [padLine_zero]; exact padLine_length_ge 80 ln)
      ⟨[], hbl, by decide⟩
    omega
  refine ⟨fun m now Sprintf => ⟨hlen m now Sprintf, ?_⟩, fun now Sprintf => ⟨by rfl, by rfl⟩⟩
  intro he
  have := hlen m now Sprintf
  rw [he] at this
  exact absurd this (Nat.lt_irrefl _)

/-! ## The renderer: the wrap scan -/

theorem wrapScan_zero (W : Int) (target : List Char) :
    wrapScan W target 0 = wrapInit target := rfl

theorem wrapScan_succ (W : Int) (target : List Char) (i : Nat) (ch : Char)
    (h : target[i]? = some ch) :
    wrapScan W target (i + 1) = wrapStep W (wrapScan W target i) (i, ch) := by
  unfold wrapScan
  rw [List.take_succ, List.getElem?_enum, h, List.foldl_append]
  rfl

theorem newlineAt_eq_wrapScan (W : Int) (target : List Char) :
    newlineAt W target = (wrapScan W target target.length).newlineAt := by
  unfold newlineAt wrapScan
  rw [List.take_of_length_le (by rw [List.enum_length])]

/-- An invariant of the scan, proved iteration by iteration, holds of every
prefix of the scan. -/
theorem wrapScan_induction (W : Int) (target : List Char) (P : Nat → WrapState → Prop)
    (h0 : P 0 (wrapInit target))
    (hstep : ∀ (i : Nat) (ch : Char) (s : WrapState), target[i]? = some ch → P i s →
      P (i + 1) (wrapStep W s (i, ch)))
    (i : Nat) (hi : i ≤ target.length) : P i (wrapScan W target i) := by
  induction i with
  | zero => exact h0
  | succ i ih =>
    have hlt : i < target.length := by omega
    have hget : target[i]? = some target[i] := List.getElem?_eq_getElem hlt
    rw [wrapScan_succ W target i _ hget]
    exact hstep i _ _ hget (ih (by omega))

theorem BreakInv_init (target : List Char) : BreakInv target 0 (wrapInit target) := by
  refine ⟨by simp [wrapInit], ?_, Or.inl rfl⟩
  intro j hj
  simp only [wrapInit, List.getElem?_replicate] at hj
  split at hj <;> simp at hj

/-- The two outcomes of one iteration of the scan, `ls` being `lastSpace`
after the test for a space. -/
theorem wrapStep_cases (W : Int) (s : WrapState) (i : Nat) (ch : Char) (ls : Int)
    (hls : ls = if ch = ' ' then (i : Int) else s.lastSpace) :
    (s.col ≥ W ∧ ls ≥ 0 →
      wrapStep W s (i, ch)
        = { col := (i : Int) - ls - 1 + 1, lastSpace := -1,
            newlineAt := s.newlineAt.set ls.toNat true }) ∧
    (¬ (s.col ≥ W ∧ ls ≥ 0) →
      wrapStep W s (i, ch) = { col := s.col + 1, lastSpace := ls, newlineAt := s.newlineAt }) := by
  subst hls
  constructor
  · intro hb
    unfold wrapStep
    simp only
    rw [if_pos hb]
  · intro hb
    unfold wrapStep
    simp only
    rw [if_neg hb]

theorem BreakInv_step (W : Int) (target : List Char) (i : Nat) (ch : Char) (s : WrapState)
    (hget : target[i]? = some ch) (h : BreakInv target i s) :
    BreakInv target (i + 1) (wrapStep W s (i, ch)) := by
  obtain ⟨h1, h2, h3⟩ := h
  obtain ⟨ls, hls⟩ : ∃ ls : Int, ls = if ch = ' ' then (i : Int) else s.lastSpace := ⟨_, rfl⟩
  have hl : ls = -1 ∨ (0 ≤ ls ∧ ls < (i : Int) + 1 ∧ target[ls.toNat]? = some ' ') := by
    by_cases hc : ch = ' '
    · rw [if_pos hc] at hls
      subst hls
      right
      refine ⟨by omega, by omega, ?_⟩
      rw [Int.toNat_ofNat, hget, hc]
    · rw [if_neg hc] at hls
      subst hls
      rcases h3 with h3 | ⟨a, b, c⟩
      · exact Or.inl h3
      · exact Or.inr ⟨a, by omega, c⟩
  obtain ⟨hbreak, hkeep⟩ := wrapStep_cases W s i ch ls hls
  by_cases hb : s.col ≥ W ∧ ls ≥ 0
  · rw [hbreak hb]
    rcases hl with hl | ⟨hl0, hl1, hl2⟩
    · have := hb.2
      omega
    · refine ⟨by simp only [List.length_set]; exact h1, ?_, Or.inl rfl⟩
      intro j hj
      simp only [List.getElem?_set] at hj
      split at hj
      · rename_i e
        rw [← e]
        exact hl2
      · exact h2 j hj
  · rw [hkeep hb]
    refine ⟨h1, h2, ?_⟩
    push_cast
    exact hl

theorem newlineAt_BreakInv (W : Int) (target : List Char) :
    BreakInv target target.length (wrapScan W target target.length) :=
  wrapScan_induction W target (BreakInv target) (BreakInv_init target)
    (fun i ch s hget h => BreakInv_step W target i ch s hget h) target.length (Nat.le_refl _)

/-- The scan only looks at whether a rune is a space. -/
theorem wrapFold_congr (W : Int) (l l' : List Char) (k : Nat) (s : WrapState)
    (h : l.map (fun c => decide (c = ' ')) = l'.map (fun c => decide (c = ' '))) :
    (l.enumFrom k).foldl (wrapStep W) s = (l'.enumFrom k).foldl (wrapStep W) s := by
  induction l generalizing l' k s with
  | nil =>
    cases l' with
    | nil => rfl
    | cons b l' => simp at h
  | cons a l ih =>
    cases l' with
    | nil => simp at h
    | cons b l' =>
      simp only [List.map_cons, List.cons.injEq, decide_eq_decide] at h
      have hstep : wrapStep W s (k, a) = wrapStep W s (k, b) := by
        unfold wrapStep
        simp only [h.1]
      simp only [List.enumFrom_cons, List.foldl_cons, hstep]
      exact ih l' (k + 1) _ h.2

theorem newlineAt_congr (W : Int) (l l' : List Char)
    (h : l.map (fun c => decide (c = ' ')) = l'.map (fun c => decide (c = ' '))) :
    newlineAt W l = newlineAt W l' := by
  have hlen : l.length = l'.length := by
    have := congrArg List.length h
    simpa using this
  unfold newlineAt wrapInit List.enum
  rw [hlen, wrapFold_congr W l l' 0 _ h]

theorem map_space_token (t : List Char) (h : ' ' ∉ t) :
    t.map (fun c => decide (c = ' ')) = List.replicate t.length false := by
  rw [List.eq_replicate_iff]
  refine ⟨by simp, ?_⟩
  intro b hb
  obtain ⟨c, hc, rfl⟩ := List.mem_map.mp hb
  have : c ≠ ' ' := fun e => h (e ▸ hc)
  simp [this]

set_option maxRecDepth 20000 in
theorem newlineAt_two_tokens :
    newlineAt 30 (List.replicate 25 'a' ++ ' ' :: List.replicate 25 'b')
      = List.replicate 25 false ++ true :: List.replicate 25 false := by
  rfl

/-- C11: for every target and every viewport width, the slice `newlineAt`
computed by the wrap scan of `View` has the length of the target and is true
only at indices holding a space: no break is chosen inside a token, so no
token is split.  For every target made of two tokens of 25 non-space runes
separated by one space, at viewport width 34 the wrapping width is 30 and
exactly one break is chosen, at index 25, the space. -/
theorem breaks_only_at_spaces :
    (∀ (target : List Char) (width : Int),
      (newlineAt (maxW width) target).length = target.length ∧
      ∀ j : Nat, (newlineAt (maxW width) target)[j]? = some true → target[j]? = some ' ') ∧
    (∀ t1 t2 : List Char, t1.length = 25 → t2.length = 25 → ' ' ∉ t1 → ' ' ∉ t2 →
      maxW 34 = 30 ∧
      newlineAt (maxW 34) (t1 ++ ' ' :: t2)
        = List.replicate 25 false ++ true :: List.replicate 25 false) := by
  refine ⟨?_, ?_⟩
  · intro target width
    have h := newlineAt_BreakInv (maxW width) target
    rw [newlineAt_eq_wrapScan]
    exact ⟨h.1, h.2.1⟩
  · intro t1 t2 h1 h2 n1 n2
    have hW : maxW 34 = 30 := by decide
    refine ⟨hW, ?_⟩
    have hmap : (t1 ++ ' ' :: t2).map (fun c => decide (c = ' '))
        = (List.replicate 25 'a' ++ ' ' :: List.replicate 25 'b').map
            (fun c => decide (c = ' ')) := by
      rw [List.map_append, List.map_cons, map_space_token t1 n1, map_space_token t2 n2, h1, h2]
      decide
    rw [newlineAt_congr _ _ _ hmap, hW]
    exact newlineAt_two_tokens

/-- C11, at two tokens of 25 runes: the only break is at the space. -/
theorem breaks_only_at_spaces_witness :
    maxW 34 = 30 ∧
      newlineAt (maxW 34) (List.replicate 25 'x' ++ ' ' :: List.replicate 25 'y')
        = List.replicate 25 false ++ true :: List.replicate 25 false :=
  breaks_only_at_spaces.2 (List.replicate 25 'x') (List.replicate 25 'y')
    (by decide) (by decide) (by decide) (by decide)

/-! ## The renderer: the length of the wrapped lines -/

theorem WrapInv_init (W : Nat) (target : List Char) : WrapInv W target 0 (wrapInit target) := by
  unfold WrapInv wrapInit
  refine ⟨⟨by simp, by simp, by simp⟩, Or.inl rfl, ?_, ?_, Or.inl (by simp), ?_, by simp⟩
  · intro j _ hj
    omega
  · intro j _ hj
    simp only [List.getElem?_replicate] at hj
    split at hj <;> simp at hj
  · intro a b _ hb
    simp only [Nat.cast_zero, sub_zero] at hb
    omega

theorem WrapInv_step (W : Nat) (target : List Char)
    (H : ∀ a : Nat, a + W < target.length →
      ∃ j : Nat, a ≤ j ∧ j ≤ a + W ∧ target[j]? = some ' ')
    (i : Nat) (ch : Char) (s : WrapState)
    (hget : target[i]? = some ch) (h : WrapInv W target i s) :
    WrapInv W target (i + 1) (wrapStep W s (i, ch)) := by
  obtain ⟨⟨c0, ci, cW⟩, j2, j3, j4, j5, j6, j7⟩ := h
  have hi : i < target.length := by
    by_contra hge
    rw [List.getElem?_eq_none (by omega)] at hget
    cases hget
  obtain ⟨ls, hls⟩ : ∃ ls : Int, ls = if ch = ' ' then (i : Int) else s.lastSpace := ⟨_, rfl⟩
  have hlsA : ch = ' ' → ls = i := fun hc => by rw [hls, if_pos hc]
  have hlsB : ch ≠ ' ' → ls = s.lastSpace := fun hc => by rw [hls, if_neg hc]
  have hch : ch ≠ ' ' → target[i]? ≠ some ' ' := by
    intro hc he
    rw [hget] at he
    exact hc (Option.some.inj he)
  obtain ⟨hbreak, hkeep⟩ := wrapStep_cases W s i ch ls hls
  by_cases hb : s.col ≥ W ∧ ls ≥ 0
  · rw [hbreak hb]
    obtain ⟨hb1, hb2⟩ := hb
    have hp : (i : Int) - s.col ≤ ls ∧ ls ≤ i := by
      by_cases hc : ch = ' '
      · have := hlsA hc
        omega
      · have := hlsB hc
        rcases j2 with j2 | j2
        · omega
        · omega
    have hk : ((ls.toNat : Nat) : Int) = ls := Int.toNat_of_nonneg hb2
    unfold WrapInv
    dsimp only
    refine ⟨⟨by omega, by omega, by omega⟩, Or.inl rfl, ?_, ?_,
      Or.inr ⟨ls.toNat, by omega, ?_⟩, ?_, by simp only [List.length_set]; exact j7⟩
    · intro j hj1 hj2 _
      by_cases hc : ch = ' '
      · have := hlsA hc
        omega
      · have := hlsB hc
        by_cases hji : j = i
        · rw [hji]
          exact hch hc
        · exact j3 j (by omega) (by omega) (by omega)
    · intro j hj1
      rw [List.getElem?_set]
      have hne : ¬ ls.toNat = j := by omega
      rw [if_neg hne]
      exact j4 j (by omega)
    · rw [List.getElem?_set]
      have hlt : ls.toNat < s.newlineAt.length := by omega
      simp [hlt]
    · intro a b hab hbl hfree
      have hfree' : ∀ k : Nat, a ≤ k → k < b → s.newlineAt[k]? ≠ some true := by
        intro k hk1 hk2
        have := hfree k hk1 hk2
        rw [List.getElem?_set] at this
        have hne : ¬ ls.toNat = k := by omega
        rw [if_neg hne] at this
        exact this
      by_cases hold : (b : Int) < i - s.col
      · exact j6 a b hab hold hfree'
      · by_cases ha : (i : Int) - s.col ≤ a
        · omega
        · rcases j5 with j5 | ⟨k, hk1, hk2⟩
          · omega
          · exact absurd hk2 (hfree' k (by omega) (by omega))
  · rw [hkeep hb]
    have hcol : s.col < W := by
      by_contra hge
      have hls0 : ¬ ls ≥ 0 := fun hx => hb ⟨by omega, hx⟩
      have hc : ch ≠ ' ' := by
        intro hc
        have := hlsA hc
        omega
      have hl := hlsB hc
      have hl1 : s.lastSpace = -1 := by
        rcases j2 with j2 | j2
        · exact j2
        · omega
      obtain ⟨j, hj1, hj2, hj3⟩ := H (i - W) (by omega)
      by_cases hji : j = i
      · rw [hji] at hj3
        exact hch hc hj3
      · exact j3 j (by omega) (by omega) (by omega) hj3
    unfold WrapInv
    dsimp only
    refine ⟨⟨by omega, by omega, by omega⟩, ?_, ?_, ?_, ?_, ?_, j7⟩
    · by_cases hc : ch = ' '
      · have := hlsA hc
        right
        omega
      · have := hlsB hc
        rcases j2 with j2 | j2
        · left
          omega
        · right
          omega
    · intro j hj1 hj2 hj3
      by_cases hc : ch = ' '
      · have := hlsA hc
        omega
      · have := hlsB hc
        by_cases hji : j = i
        · rw [hji]
          exact hch hc
        · exact j3 j (by omega) (by omega) (by omega)
    · intro j hj1
      exact j4 j (by omega)
    · rcases j5 with j5 | ⟨k, hk1, hk2⟩
      · left
        omega
      · right
        exact ⟨k, by omega, hk2⟩
    · intro a b hab hbl hfree
      exact j6 a b hab (by omega) hfree

theorem newlineAt_WrapInv (W : Nat) (target : List Char)
    (H : ∀ a : Nat, a + W < target.length →
      ∃ j : Nat, a ≤ j ∧ j ≤ a + W ∧ target[j]? = some ' ') :
    WrapInv W target target.length (wrapScan W target target.length) :=
  wrapScan_induction W target (WrapInv W target) (WrapInv_init W target)
    (fun i ch s hget h => WrapInv_step W target H i ch s hget h) target.length (Nat.le_refl _)

theorem maxW_ge (width : Int) : 20 ≤ maxW width := by
  unfold maxW
  simp only
  split <;> split <;> omega

/-- C19: let `W` be the wrapping width of `View`, and let the target have no
run of non-space runes longer than `W` (every `W + 1` consecutive positions
hold a space).  Then positions `a..b` of the target between which the wrap
puts no newline are at most `W + 1`, so every line has at most `W + 1`
runes, and at most `W` without its last one (the space at which it was
broken); and the last line, from a position `a` to the end of the target, has
at most `W` runes. -/
theorem wrapped_lines_bounded (target : List Char) (width : Int)
    (H : ∀ a : Nat, a + (maxW width).toNat < target.length →
      ∃ j : Nat, a ≤ j ∧ j ≤ a + (maxW width).toNat ∧ target[j]? = some ' ') :
    (∀ a b : Nat, a ≤ b → b < target.length →
      (∀ k : Nat, a ≤ k → k < b → (newlineAt (maxW width) target)[k]? ≠ some true) →
      b + 1 - a ≤ (maxW width).toNat + 1) ∧
    (∀ a : Nat, a ≤ target.length →
      (∀ k : Nat, a ≤ k → k < target.length →
        (newlineAt (maxW width) target)[k]? ≠ some true) →
      target.length - a ≤ (maxW width).toNat) := by
  have hge := maxW_ge width
  have hW : (((maxW width).toNat : Nat) : Int) = maxW width := Int.toNat_of_nonneg (by omega)
  have hinv := newlineAt_WrapInv (maxW width).toNat target H
  rw [hW] at hinv
  rw [newlineAt_eq_wrapScan]
  generalize wrapScan (maxW width) target target.length = s at hinv
  obtain ⟨⟨c0, ci, cW⟩, _, _, j4, j5, j6, _⟩ := hinv
  refine ⟨?_, ?_⟩
  · intro a b hab hb hfree
    by_cases hold : (b : Int) < target.length - s.col
    · have := j6 a b hab hold hfree
      omega
    · by_cases ha : (target.length : Int) - s.col ≤ a
      · omega
      · rcases j5 with j5 | ⟨k, hk1, hk2⟩
        · omega
        · exact absurd hk2 (hfree k (by omega) (by omega))
  · intro a ha hfree
    by_cases ha2 : (target.length : Int) - s.col ≤ a
    · omega
    · rcases j5 with j5 | ⟨k, hk1, hk2⟩
      · omega
      · exact absurd hk2 (hfree k (by omega) (by omega))

/-- C19, at a target of three tokens of 30 runes separated by single spaces,
with no viewport width known (wrapping width 76). -/
theorem wrapped_lines_bounded_witness :
    (∀ a b : Nat, a ≤ b →
      b < (List.replicate 30 'a' ++ ' ' :: (List.replicate 30 'b' ++ ' ' ::
        List.replicate 30 'c')).length →
      (∀ k : Nat, a ≤ k → k < b →
        (newlineAt (maxW 0) (List.replicate 30 'a' ++ ' ' :: (List.replicate 30 'b' ++ ' ' ::
          List.replicate 30 'c')))[k]? ≠ some true) →
      b + 1 - a ≤ (maxW 0).toNat + 1) ∧
    (∀ a : Nat,
      a ≤ (List.replicate 30 'a' ++ ' ' :: (List.replicate 30 'b' ++ ' ' ::
        List.replicate 30 'c')).length →
      (∀ k : Nat, a ≤ k →
        k < (List.replicate 30 'a' ++ ' ' :: (List.replicate 30 'b' ++ ' ' ::
          List.replicate 30 'c')).length →
        (newlineAt (maxW 0) (List.replicate 30 'a' ++ ' ' :: (List.replicate 30 'b' ++ ' ' ::
          List.replicate 30 'c')))[k]? ≠ some true) →
      (List.replicate 30 'a' ++ ' ' :: (List.replicate 30 'b' ++ ' ' ::
        List.replicate 30 'c')).length - a ≤ (maxW 0).toNat) :=
  wrapped_lines_bounded
    (List.replicate 30 'a' ++ ' ' :: (List.replicate 30 'b' ++ ' ' :: List.replicate 30 'c')) 0
    (fun a ha => ⟨30, by
      have h76 : (maxW 0).toNat = 76 := by decide
      have hlen : (List.replicate 30 'a' ++ ' ' :: (List.replicate 30 'b' ++ ' ' ::
          List.replicate 30 'c')).length = 92 := by decide
      rw [h76, hlen] at ha
      rw [h76]
      refine ⟨by omega, by omega, by decide⟩⟩)

/-! ## The counters and the styled text -/

theorem styleSpec_correct_iff (m : TestModel) (i : Nat) :
    styleSpec m i = bold ++ green ↔ (i < m.typed.length ∧ m.typed[i]? = m.target[i]?) := by
  unfold styleSpec
  constructor
  · intro h
    split at h
    · assumption
    · split at h
      · exact absurd h (by decide)
      · split at h
        · exact absurd h (by decide)
        · exact absurd h (by decide)
  · intro h
    rw [if_pos h]

theorem countP_below (p : Nat → Bool) (a n : Nat) :
    (List.range n).countP (fun i => decide (i < a) && p i)
      = (List.range (min a n)).countP p := by
  induction n with
  | zero => simp
  | succ n ih =>
    rw [List.range_succ, List.countP_append, ih]
    by_cases h : n < a
    · have hmin : min a (n + 1) = min a n + 1 := by omega
      have hn : min a n = n := by omega
      rw [hmin, List.range_succ, List.countP_append, hn]
      simp [List.countP_cons, h]
    · have hmin : min a (n + 1) = min a n := by omega
      rw [hmin]
      simp [h]

/-- The number of positions `View` styles as correct is the recount of the
specification. -/
theorem styled_correct_count (m : TestModel) :
    (List.range m.target.length).countP (fun i => decide (styleSpec m i = bold ++ green))
      = recountSpec m.typed m.target := by
  have hfun : (fun i => decide (styleSpec m i = bold ++ green))
      = fun i => decide (i < m.typed.length) && decide (m.typed[i]? = m.target[i]?) := by
    funext i
    rw [← Bool.decide_and]
    exact decide_eq_decide.mpr (styleSpec_correct_iff m i)
  rw [hfun, countP_below]
  rfl

/-- C18: in every state reached from `NewTestModelWith target d` by any
sequence of events, `correct` is the number of positions
`i < min(len(typed), len(target))` with `typed[i] == target[i]`, and
`incorrect` is `len(typed)` minus that number; `correct` is also the number of
positions of the target that `View` styles as correct. -/
theorem counters_agree_with_recount (target : String) (d : Int)
    (events : List (Msg × Int)) :
    ∃ s, run (NewTestModelWith target d) events = some s ∧
      s.correct = recountSpec s.typed s.target ∧
      s.incorrect = (s.typed.length : Int) - recountSpec s.typed s.target ∧
      recountSpec s.typed s.target ≤ s.typed.length ∧
      s.correct = (List.range s.target.length).countP
        (fun i => decide (styleSpec s i = bold ++ green)) := by
  obtain ⟨s, hr, hI, _, _⟩ := run_Inv events _ (Inv_NewTestModelWith target d)
  obtain ⟨_, hk, hi, _⟩ := hI
  have hle := matchCount_le s.typed s.target
  rw [matchCount_eq_recountSpec] at hk hi hle
  exact ⟨s, hr, hk, hi, hle, by rw [styled_correct_count]; exact hk⟩

end Tykey
